import Mathlib

/-!
Verification of the Railbookers package-finder core against its sources.

JavaScript strings are modelled as lists of characters (JStr); the JS string
methods used by the sources (toLowerCase, trim, includes, startsWith, length)
are embedded as executable functions on character lists below.  Stateful
controller code is embedded as explicit state passing; fetch results are
Except values.
-/

-- ===========================================================================
-- DEFINITIONS
-- ===========================================================================

/-- A JavaScript string, modelled as its character sequence. -/
abbrev JStr := List Char

/-- JS String.prototype.toLowerCase, modelled per character. -/
def jsToLower (s : JStr) : JStr := s.map Char.toLower

/-- Whitespace as trimmed by JS String.prototype.trim (common cases). -/
def jsIsSpace (c : Char) : Bool := c = ' ' || c = '\t' || c = '\n' || c = '\r'

/-- JS String.prototype.trim: strip leading and trailing whitespace. -/
def jsTrim (s : JStr) : JStr :=
  ((s.dropWhile jsIsSpace).reverse.dropWhile jsIsSpace).reverse

/-- JS String.prototype.includes: substring containment test. -/
def jsHasSub (hay sub : JStr) : Bool :=
  match hay with
  | [] => sub.isEmpty
  | _ :: t => sub.isPrefixOf hay || jsHasSub t sub

-- ---------------------------------------------------------------------------
-- C5: duration-bound sanitisation.
-- Modelled from the spec: the Filter Sanitiser lives in
-- backend/app/services/recommendation_engine.py (function _sanitize_filters),
-- which is not among the provided sources; per the spec, duration bounds are
-- clamped into [1, 365] and swapped when min exceeds max after clamping.
-- ---------------------------------------------------------------------------

/-- Modelled from the spec: clamp a single duration bound into [1, 365]. -/
def clampDuration (n : Int) : Int := max 1 (min 365 n)

/-- Modelled from the spec: sanitise a duration (min, max) pair — clamp both
bounds into [1, 365], then swap them if min exceeds max. -/
def sanitizeDuration (dmin dmax : Int) : Int × Int :=
  let a := clampDuration dmin
  let b := clampDuration dmax
  if a ≤ b then (a, b) else (b, a)

-- ---------------------------------------------------------------------------
-- C6: doSearch outcome classification (recommend.js controller, doSearch).
-- ---------------------------------------------------------------------------

/-- A package entry as far as result rendering is concerned. -/
structure PackageCard where
  name : JStr
deriving DecidableEq

/-- The body of a successful search response; a missing packages field is
modelled as none. -/
structure SearchResponse where
  packages : Option (List PackageCard)
deriving DecidableEq

/-- The three user-visible outcomes the doSearch controller can render. -/
inductive SearchUIOutcome where
  | resultsRendered (pkgs : List PackageCard)
  | noResultsRendered
  | errorRendered (msg : JStr)
deriving DecidableEq

/-- Embedding of the outcome branch of doSearch: a rejected request renders
the error card; a fulfilled response renders result cards when
result.packages is a non-empty array and the no-results card otherwise. -/
def searchOutcome (x : Except JStr SearchResponse) : SearchUIOutcome :=
  match x with
  | .error e => .errorRendered e
  | .ok r =>
    match r.packages with
    | some (p :: ps) => .resultsRendered (p :: ps)
    | some [] => .noResultsRendered
    | none => .noResultsRendered

-- ---------------------------------------------------------------------------
-- C7: bounded-timeout fetch wrappers.
-- apiFetch (recommend.js) and APIService._fetch (frontend/services/api.js).
-- The browser abort timer is modelled by an abort outcome for the attempt;
-- each element of the outcome list is what the underlying fetch of one
-- attempt produced.
-- ---------------------------------------------------------------------------

/-- What one underlying fetch attempt can produce: a parsed ok response, a
non-ok HTTP response (status and error body text), an abort fired by the
timeout timer, or a network error with a message. -/
inductive FetchAttempt where
  | ok (body : SearchResponse)
  | httpErr (status : Nat) (text : JStr)
  | abort
  | netErr (msg : JStr)

/-- Message built by apiFetch for a non-ok response: HTTP status colon body. -/
def httpErrMsg (status : Nat) (text : JStr) : JStr :=
  "HTTP ".data ++ (toString status).data ++ ": ".data ++ text

/-- Embedding of the retry loop of apiFetch (recommend.js): attempts run for
attempt = 0..retries; an ok response returns its body; an abort is rethrown
as the timeout error; any other error retries unless the attempt budget is
exhausted or the message contains HTTP 4. -/
def apiFetchLoop (retries attempt : Nat) : List FetchAttempt → Except JStr SearchResponse
  | [] => .error "Request failed.".data
  | o :: rest =>
    match o with
    | .ok body => .ok body
    | .abort => .error "Request timed out.".data
    | .httpErr status text =>
      let msg := httpErrMsg status text
      if attempt < retries && !jsHasSub msg "HTTP 4".data then
        apiFetchLoop retries (attempt + 1) rest
      else .error msg
    | .netErr msg =>
      if attempt < retries && !jsHasSub msg "HTTP 4".data then
        apiFetchLoop retries (attempt + 1) rest
      else .error msg

/-- Embedding of apiFetch with its default of two retries. -/
def apiFetch (retries : Nat) (attempts : List FetchAttempt) : Except JStr SearchResponse :=
  apiFetchLoop retries 0 attempts

/-- Embedding of APIService._fetch (frontend/services/api.js): a non-ok
response with status at least 500 retries while budget remains; otherwise the
thrown HTTP error message is caught by the same catch block and retried
unless it contains the words timed out; an abort becomes the timeout error;
other errors retry on the same condition. -/
def serviceFetchLoop (maxRetries retries : Nat) : List FetchAttempt → Except JStr SearchResponse
  | [] => .error "Request failed.".data
  | o :: rest =>
    match o with
    | .ok body => .ok body
    | .abort => .error "Request timed out. Please try again.".data
    | .httpErr status text =>
      if 500 ≤ status && retries < maxRetries then
        serviceFetchLoop maxRetries (retries + 1) rest
      else
        let msg := (toString status).data ++ " ".data ++ text
        if retries < maxRetries && !jsHasSub msg "timed out".data then
          serviceFetchLoop maxRetries (retries + 1) rest
        else .error msg
    | .netErr msg =>
      if retries < maxRetries && !jsHasSub msg "timed out".data then
        serviceFetchLoop maxRetries (retries + 1) rest
      else .error msg

-- ---------------------------------------------------------------------------
-- C3, C4, C10: search-row state machine of the Package Finder controller
-- (recommend.js: addSearchRow, removeSearchRow, addDestToRow,
-- removeDestFromRow, clearAll, buildFilters).
-- ---------------------------------------------------------------------------

/-- Search modes of the mode dropdown. -/
inductive RowMode where
  | includes
  | starts_in
  | ends_in
deriving DecidableEq

/-- One search row of the controller state. -/
structure UIRow where
  id : Nat
  destinations : List JStr
  mode : RowMode
deriving DecidableEq

/-- The searchRows / nextRowId part of the controller state object. -/
structure UIState where
  searchRows : List UIRow
  nextRowId : Nat
deriving DecidableEq

/-- The initial controller state: one empty includes row with id 1. -/
def initialUIState : UIState := ⟨[⟨1, [], .includes⟩], 2⟩

/-- addSearchRow: push a fresh empty includes row with the next row id. -/
def addSearchRow (s : UIState) : UIState :=
  { searchRows := s.searchRows ++ [⟨s.nextRowId, [], .includes⟩],
    nextRowId := s.nextRowId + 1 }

/-- removeSearchRow: no-op when only one row remains, otherwise drop the row
with the given id. -/
def removeSearchRow (rid : Nat) (s : UIState) : UIState :=
  if s.searchRows.length ≤ 1 then s
  else { s with searchRows := s.searchRows.filter (fun r => r.id != rid) }

/-- The destination-list update of addDestToRow: trim, reject empty or
over-100-character values, reject case-insensitive duplicates, reject when
the row already holds 10 destinations, else push the trimmed value. -/
def addDestList (ds : List JStr) (dest : JStr) : List JStr :=
  let v := jsTrim dest
  if v = [] ∨ 100 < v.length then ds
  else if ds.any (fun d => jsToLower d == jsToLower v) then ds
  else if 10 ≤ ds.length then ds
  else ds ++ [v]

/-- Update the first row with the given id (state.searchRows.find mutation);
a missing id is a no-op. -/
def updateFirstRow (rid : Nat) (f : UIRow → UIRow) : List UIRow → List UIRow
  | [] => []
  | r :: rs => if r.id = rid then f r :: rs else r :: updateFirstRow rid f rs

/-- addDestToRow lifted to the whole state. -/
def addDestToRow (rid : Nat) (dest : JStr) (s : UIState) : UIState :=
  { s with searchRows := updateFirstRow rid (fun r => { r with destinations := addDestList r.destinations dest }) s.searchRows }

/-- removeDestFromRow: drop the exact destination string from the row. -/
def removeDestFromRow (rid : Nat) (dest : JStr) (s : UIState) : UIState :=
  { s with searchRows := updateFirstRow rid (fun r => { r with destinations := r.destinations.filter (fun d => d != dest) }) s.searchRows }

/-- clearAll restricted to the row state: reset to one empty includes row
with id 1 and nextRowId 2. -/
def clearAllRows (_ : UIState) : UIState := initialUIState

/-- User actions touching the search rows. -/
inductive UIAction where
  | addRow
  | removeRow (rid : Nat)
  | addDest (rid : Nat) (dest : JStr)
  | removeDest (rid : Nat) (dest : JStr)
  | clearAll

/-- Interpret one user action on the controller state. -/
def applyUIAction (s : UIState) : UIAction → UIState
  | .addRow => addSearchRow s
  | .removeRow rid => removeSearchRow rid s
  | .addDest rid dest => addDestToRow rid dest s
  | .removeDest rid dest => removeDestFromRow rid dest s
  | .clearAll => clearAllRows s

/-- Run a sequence of user actions from the initial state. -/
def runUIActions (acts : List UIAction) : UIState :=
  acts.foldl applyUIAction initialUIState

/-- One search row of the request body built by buildFilters. -/
structure RequestRow where
  mode : RowMode
  destinations : List JStr
deriving DecidableEq

/-- The search underscore rows list of the request built by buildFilters:
one entry per state row with a non-empty destination list. -/
def buildSearchRows (s : UIState) : List RequestRow :=
  (s.searchRows.filter (fun r => !r.destinations.isEmpty)).map
    (fun r => ⟨r.mode, r.destinations⟩)

/-- Invariant of one destination list: at most 10 entries, each at most 100
characters, no two equal up to case. -/
def DestListInv (ds : List JStr) : Prop :=
  ds.length ≤ 10 ∧ (∀ d ∈ ds, d.length ≤ 100) ∧
  List.Pairwise (fun a b => jsToLower a ≠ jsToLower b) ds

/-- Invariant of the row state: at least one row, pairwise distinct row ids,
ids below the id counter, and every destination list well-formed. -/
def UIStateInv (s : UIState) : Prop :=
  s.searchRows ≠ [] ∧
  List.Pairwise (fun a b => a.id ≠ b.id) s.searchRows ∧
  (∀ r ∈ s.searchRows, r.id < s.nextRowId) ∧
  (∀ r ∈ s.searchRows, DestListInv r.destinations)

/-- A concrete action sequence: the user adds a destination to the first row,
then five more rows each receiving one destination. -/
def overflowActions : List UIAction :=
  [.addDest 1 "Rome".data, .addRow, .addDest 2 "Paris".data,
   .addRow, .addDest 3 "Berlin".data, .addRow, .addDest 4 "Madrid".data,
   .addRow, .addDest 5 "Oslo".data, .addRow, .addDest 6 "Vienna".data]

-- ---------------------------------------------------------------------------
-- C2: client-side autosuggest re-ranking (recommend.js, fetchSuggestions).
-- ---------------------------------------------------------------------------

/-- JS String.prototype.localeCompare, modelled as code-point lexicographic
comparison; only the sign of the result matters to the comparator. -/
def localeCmp : JStr → JStr → Int
  | [], [] => 0
  | [], _ :: _ => -1
  | _ :: _, [] => 1
  | a :: as, b :: bs => if a < b then -1 else if b < a then 1 else localeCmp as bs

/-- The comparator passed to items.sort in fetchSuggestions: candidates whose
lowercased value starts with the lowercased query first, then shorter values,
then locale comparison.  The query ql is already lowercased by the caller. -/
def suggestCmp (ql a b : JStr) : Int :=
  let aStarts : Int := if ql.isPrefixOf (jsToLower a) then 0 else 1
  let bStarts : Int := if ql.isPrefixOf (jsToLower b) then 0 else 1
  if aStarts ≠ bStarts then aStarts - bStarts
  else if a.length ≠ b.length then (a.length : Int) - (b.length : Int)
  else localeCmp a b

/-- The comparator as a relation: a may be placed no later than b. -/
def suggestRel (ql : JStr) (a b : JStr) : Prop := suggestCmp ql a b ≤ 0

instance (ql : JStr) : DecidableRel (suggestRel ql) :=
  fun a b => inferInstanceAs (Decidable (suggestCmp ql a b ≤ 0))

/-- The sort-then-slice of fetchSuggestions.  Array.prototype.sort is stable
(ES2019) and the comparator is a total preorder, so the JS result equals any
stable sort by the comparator; it is embedded as an insertion sort. -/
def rankSuggestions (query : JStr) (items : List JStr) (limit : Nat) : List JStr :=
  (List.insertionSort (suggestRel (jsToLower query)) items).take limit

/-- The three-key ordering as the spec states it: prefix match before
substring-only match, shorter value before longer, then lexicographic. -/
def threeKeyOrder (ql : JStr) (a b : JStr) : Prop :=
  (ql.isPrefixOf (jsToLower a) = true ∧ ql.isPrefixOf (jsToLower b) = false) ∨
  (ql.isPrefixOf (jsToLower a) = ql.isPrefixOf (jsToLower b) ∧
    (a.length < b.length ∨ (a.length = b.length ∧ localeCmp a b ≤ 0)))

-- ---------------------------------------------------------------------------
-- C8: result-scoped facet derivation (recommend.js, updateFiltersFromResults).
-- Only the duration computation is evaluated at concrete inputs, so plain
-- String fields are kept here.
-- ---------------------------------------------------------------------------

/-- A duration range as carried by available underscore filters. -/
structure DurationRange where
  min : Nat
  max : Nat
deriving DecidableEq

/-- The available underscore filters object of a search response; absent
fields are modelled as none / empty lists. -/
structure AvailableFilters where
  regions : List String
  countries : List String
  train_names : List String
  vacation_types : List String
  duration_range : Option DurationRange
deriving DecidableEq

/-- The filter-panel part of the controller state touched by
updateFiltersFromResults; filterOptions is the cached response of the
filters endpoint (the facet cache on the client side). -/
structure PanelState where
  allRegions : List String
  allCountries : List String
  allRegionItems : List String
  allTrainNames : List String
  allVacationTypes : List String
  durationRange : DurationRange
  selectedRegions : List String
  selectedTrains : List String
  selectedVacTypes : List String
  filterOptions : Option AvailableFilters
  chipPageRegion : Nat
  chipPageTrains : Nat
  chipPageVactype : Nat
deriving DecidableEq

/-- The blank-entry filter used on every facet list: keep r when r and
r.trim() are truthy. -/
def keepNonBlank (l : List String) : List String :=
  l.filter (fun s => !(s == "") && !(s.trim == ""))

/-- JS numeric or-default: n || dflt is dflt when n is 0. -/
def jsOrDefault (n dflt : Nat) : Nat := if n = 0 then dflt else n

/-- Embedding of updateFiltersFromResults: replace the facet option lists by
the blank-filtered lists of the available underscore filters object, update
the duration range when one is carried (zero bounds fall back to the 2 / 34
defaults), prune selections no longer present, and reset chip pages; the
cached filterOptions object is not written. -/
def updateFiltersFromResults (af : AvailableFilters) (s : PanelState) : PanelState :=
  let regions := keepNonBlank af.regions
  let countries := keepNonBlank af.countries
  let regionItems := regions ++ countries
  let trains := keepNonBlank af.train_names
  let vacs := keepNonBlank af.vacation_types
  let dr := match af.duration_range with
    | some d => ⟨jsOrDefault d.min 2, jsOrDefault d.max 34⟩
    | none => s.durationRange
  { s with
    allRegions := regions,
    allCountries := countries,
    allRegionItems := regionItems,
    allTrainNames := trains,
    allVacationTypes := vacs,
    durationRange := dr,
    selectedRegions := s.selectedRegions.filter (fun r => regionItems.contains r),
    selectedTrains := s.selectedTrains.filter (fun t => trains.contains t),
    selectedVacTypes := s.selectedVacTypes.filter (fun v => vacs.contains v),
    chipPageRegion := 1,
    chipPageTrains := 1,
    chipPageVactype := 1 }

/-- An available underscore filters object whose duration range carries a
zero minimum. -/
def afZeroMin : AvailableFilters :=
  ⟨["Europe"], ["Italy"], [], [], some ⟨0, 40⟩⟩

/-- A panel state to feed the counterexample. -/
def panelState0 : PanelState :=
  ⟨[], [], [], [], [], ⟨2, 34⟩, [], [], [], none, 1, 1, 1⟩

-- ---------------------------------------------------------------------------
-- C1: progressive fallback of the recommendation engine.
-- Modelled from the spec: the Fallback Controller and Query Builder live in
-- backend/app/services/recommendation_engine.py (functions _fallback_search,
-- _build_where, _sanitize_filters), which is not among the provided sources;
-- the model below follows sections 4.2 and 4.4 of the spec: row clauses with
-- includes / starts-in / ends-in semantics, the fixed secondary relaxation
-- order, and primary filters never dropped.
-- ---------------------------------------------------------------------------

/-- One search row of a sanitised engine request. -/
structure EngineRow where
  mode : RowMode
  destinations : List JStr
deriving DecidableEq

/-- A sanitised engine request.  search underscore rows, the legacy single
includes / starts underscore in / ends underscore in filters, region and
package underscore name are primary; the rest are secondary. -/
structure EngineFilters where
  search_rows : List EngineRow
  includes : Option JStr
  starts_in : Option JStr
  ends_in : Option JStr
  region : Option JStr
  package_name : Option JStr
  departure_type : Option JStr
  hotel_tier : Option JStr
  vacation_types : List JStr
  train_names : List JStr
  countries : List JStr
  duration_min : Option Nat
  duration_max : Option Nat
deriving DecidableEq

/-- A catalog row; pipe-delimited fields are kept as raw text, matched by
case-insensitive substring as the SQL LIKE clauses do. -/
structure EnginePackage where
  external_name : JStr
  start_location : JStr
  end_location : JStr
  included_cities : JStr
  included_countries : JStr
  included_regions : JStr
  triptype : JStr
  route : JStr
  profitability_group : JStr
  departure_type : JStr
  duration : JStr
  package_rank : Nat
deriving DecidableEq

/-- Case-insensitive equality, as LOWER(col) = LOWER(param). -/
def lowerEq (a b : JStr) : Bool := jsToLower a == jsToLower b

/-- Case-insensitive containment, as LOWER(col) LIKE percent-param-percent. -/
def lowerHas (hay sub : JStr) : Bool := jsHasSub (jsToLower hay) (jsToLower sub)

/-- Modelled from the spec: one destination of a search row matches a row —
starts-in and ends-in compare the endpoints exactly (case-insensitively);
includes matches included cities by substring, either endpoint exactly, or
included countries by substring. -/
def destMatch (p : EnginePackage) (mode : RowMode) (d : JStr) : Bool :=
  match mode with
  | .starts_in => lowerEq p.start_location d
  | .ends_in => lowerEq p.end_location d
  | .includes =>
    lowerHas p.included_cities d || lowerEq p.start_location d ||
    lowerEq p.end_location d || lowerHas p.included_countries d

/-- Destinations are OR-combined within a row. -/
def rowMatch (p : EnginePackage) (row : EngineRow) : Bool :=
  row.destinations.any (destMatch p row.mode)

/-- An absent optional filter imposes no constraint. -/
def optMatch (o : Option JStr) (f : JStr → Bool) : Bool :=
  match o with
  | none => true
  | some v => f v

/-- Modelled from the spec: the fixed tier-label to profitability-group
lookup table. -/
def tierGroups (t : JStr) : List JStr :=
  if lowerEq t "Luxury".data then ["Packages - High".data]
  else if lowerEq t "Value".data then ["Packages - Low".data]
  else ["Packages - Standard Margin".data, "Hurtigruten Packages".data,
        "Package - 29/30/31%".data]

/-- Conjunction of all primary clauses of a request: every search row, the
legacy includes / starts-in / ends-in filters, region and package name. -/
def primaryOK (f : EngineFilters) (p : EnginePackage) : Bool :=
  f.search_rows.all (rowMatch p) &&
  optMatch f.includes (destMatch p .includes) &&
  optMatch f.starts_in (lowerEq p.start_location) &&
  optMatch f.ends_in (lowerEq p.end_location) &&
  optMatch f.region (lowerHas p.included_regions) &&
  optMatch f.package_name (lowerHas p.external_name)

/-- A duration text field is valid when it is a non-empty digit string. -/
def validDuration (s : JStr) : Bool := !s.isEmpty && s.all Char.isDigit

/-- Numeric value of a digit string. -/
def durValue (s : JStr) : Nat := s.foldl (fun acc c => acc * 10 + (c.toNat - 48)) 0

/-- Duration bounds apply only to rows with a valid numeric duration; rows
with a non-numeric duration are excluded while a duration filter is active. -/
def durationOK (f : EngineFilters) (p : EnginePackage) : Bool :=
  match f.duration_min, f.duration_max with
  | none, none => true
  | dmin, dmax =>
    validDuration p.duration &&
    (match dmin with
     | none => true
     | some m => decide (m ≤ durValue p.duration)) &&
    (match dmax with
     | none => true
     | some m => decide (durValue p.duration ≤ m))

/-- Conjunction of all secondary clauses of a request. -/
def secondaryOK (f : EngineFilters) (p : EnginePackage) : Bool :=
  optMatch f.departure_type (lowerEq p.departure_type) &&
  optMatch f.hotel_tier (fun t => (tierGroups t).any (lowerEq p.profitability_group)) &&
  (f.vacation_types.isEmpty || f.vacation_types.any (lowerHas p.triptype)) &&
  (f.train_names.isEmpty || f.train_names.any (lowerHas p.route)) &&
  (f.countries.isEmpty || f.countries.any (lowerHas p.included_countries)) &&
  durationOK f p

/-- Test and demo packages are excluded from every query, fallback included. -/
def testExcluded (p : EnginePackage) : Bool := !lowerHas p.external_name "TEST".data

/-- The full generated predicate of one query. -/
def matchesFilter (f : EngineFilters) (p : EnginePackage) : Bool :=
  testExcluded p && primaryOK f p && secondaryOK f p

/-- The six relaxable secondary filter keys. -/
inductive RelaxStep where
  | departureType
  | hotelTier
  | vacationTypes
  | trainNames
  | countries
  | durationBounds
deriving DecidableEq

/-- The fixed relaxation precedence order. -/
def relaxOrder : List RelaxStep :=
  [.departureType, .hotelTier, .vacationTypes, .trainNames, .countries, .durationBounds]

/-- Drop one secondary filter key; primary fields are never touched. -/
def dropStep (f : EngineFilters) : RelaxStep → EngineFilters
  | .departureType => { f with departure_type := none }
  | .hotelTier => { f with hotel_tier := none }
  | .vacationTypes => { f with vacation_types := [] }
  | .trainNames => { f with train_names := [] }
  | .countries => { f with countries := [] }
  | .durationBounds => { f with duration_min := none, duration_max := none }

/-- Modelled from the spec: the fallback loop — run the query; on zero rows
drop the next secondary key and retry; when every secondary key is dropped
and the result is still empty, return the explicit empty result. -/
def fallbackGo (catalog : List EnginePackage) :
    EngineFilters → List RelaxStep → Nat → List EnginePackage × Nat
  | f, keys, level =>
    let res := catalog.filter (matchesFilter f)
    if res.isEmpty then
      match keys with
      | [] => ([], level)
      | k :: ks => fallbackGo catalog (dropStep f k) ks (level + 1)
    else (res, level)

/-- The search operation with progressive fallback: start with the full
request and the whole relaxation order. -/
def fallbackSearch (catalog : List EnginePackage) (f : EngineFilters) :
    List EnginePackage × Nat :=
  fallbackGo catalog f relaxOrder 0

/-- A concrete catalog row for the witness. -/
def demoPackage : EnginePackage :=
  ⟨"Rome Holiday".data, "London".data, "Rome".data, "Florence | Milan".data,
   "Italy".data, "Europe".data, "Scenic".data, "Glacier Express".data,
   "Packages - High".data, "Anyday".data, "10".data, 5⟩

/-- A concrete request whose vacation-type filter matches nothing, forcing
three relaxation steps before the row is found. -/
def demoFilters : EngineFilters :=
  { search_rows := [⟨.includes, ["rome".data]⟩],
    includes := none,
    starts_in := none,
    ends_in := none,
    region := some "Europe".data,
    package_name := none,
    departure_type := none,
    hotel_tier := none,
    vacation_types := ["Cruise".data],
    train_names := [],
    countries := [],
    duration_min := none,
    duration_max := none }

-- ---------------------------------------------------------------------------
-- C9: chat-message content formatter (ChatMessage.formatContent).
-- The five global entity replacements run first; the markdown-style
-- substitutions follow in source order.  Regex lazy captures with dot (which
-- does not match line terminators) are embedded as earliest-close scanners
-- that never cross a newline.
-- ---------------------------------------------------------------------------

/-- Global replacement of ampersand by its entity. -/
def escAmp : JStr → JStr
  | [] => []
  | c :: r => if c = '&' then "&amp;".data ++ escAmp r else c :: escAmp r

/-- Global replacement of the less-than sign by its entity. -/
def escLt : JStr → JStr
  | [] => []
  | c :: r => if c = '<' then "&lt;".data ++ escLt r else c :: escLt r

/-- Global replacement of the greater-than sign by its entity. -/
def escGt : JStr → JStr
  | [] => []
  | c :: r => if c = '>' then "&gt;".data ++ escGt r else c :: escGt r

/-- Global replacement of the double quote by its entity. -/
def escQuot : JStr → JStr
  | [] => []
  | c :: r => if c = '"' then "&quot;".data ++ escQuot r else c :: escQuot r

/-- Global replacement of the apostrophe by its entity. -/
def escApos : JStr → JStr
  | [] => []
  | c :: r => if c = '\'' then "&#039;".data ++ escApos r else c :: escApos r

/-- The five sequential entity replacements of formatContent. -/
def escapeEntities (l : JStr) : JStr := escApos (escQuot (escGt (escLt (escAmp l))))

/-- The four tag strings the formatter introduces, as opening and closing
halves. -/
def strongOpen : JStr := "<strong>".data

/-- Closing strong tag. -/
def strongClose : JStr := "</strong>".data

/-- Opening em tag. -/
def emOpen : JStr := "<em>".data

/-- Closing em tag. -/
def emClose : JStr := "</em>".data

/-- Opening summary-line div tag. -/
def divOpen : JStr := "<div class=\"summary-line\">".data

/-- Closing div tag. -/
def divClose : JStr := "</div>".data

/-- Line-break tag. -/
def brTag : JStr := "<br>".data

/-- Index of the earliest closing double star, not crossing a newline (the
lazy dot-capture of the strong pattern cannot match line terminators). -/
def findClose : JStr → Option Nat
  | [] => none
  | c :: rest =>
    if c = '*' ∧ rest.take 1 = ['*'] then some 0
    else if c = '\n' then none
    else (findClose rest).map (· + 1)

/-- Global replacement of lazily matched double-star spans by strong tags;
a double star with no closing pair on the same line is left in place and
scanning resumes one character later, as a global regex does. -/
def replaceStrong : JStr → JStr
  | [] => []
  | c :: rest =>
    if c = '*' ∧ rest.take 1 = ['*'] then
      match findClose (rest.drop 1) with
      | some i =>
        strongOpen ++ (rest.drop 1).take i ++ strongClose ++
          replaceStrong ((rest.drop 1).drop (i + 2))
      | none => c :: replaceStrong rest
    else c :: replaceStrong rest
termination_by l => l.length
decreasing_by
  all_goals simp [List.length_drop]
  all_goals omega

/-- Index of the earliest closing single star, not crossing a newline. -/
def findCloseEm : JStr → Option Nat
  | [] => none
  | c :: rest =>
    if c = '*' then some 0
    else if c = '\n' then none
    else (findCloseEm rest).map (· + 1)

/-- Global replacement of lazily matched single-star spans by em tags. -/
def replaceEm : JStr → JStr
  | [] => []
  | c :: rest =>
    if c = '*' then
      match findCloseEm rest with
      | some i => emOpen ++ rest.take i ++ emClose ++ replaceEm (rest.drop (i + 1))
      | none => c :: replaceEm rest
    else c :: replaceEm rest
termination_by l => l.length
decreasing_by
  all_goals simp [List.length_drop]
  all_goals omega

/-- Number of characters before the next newline (or the end). -/
def lineLen : JStr → Nat
  | [] => 0
  | c :: rest => if c = '\n' then 0 else lineLen rest + 1

/-- The summary-line pattern fires on two spaces, a dash and a space. -/
def isSummaryTrigger (l : JStr) : Bool := l.take 4 == [' ', ' ', '-', ' ']

/-- Global replacement of space-space-dash-space lines by summary-line divs;
the lookahead for newline-or-end is not consumed, so scanning resumes at the
newline. -/
def replaceSummary : JStr → JStr
  | [] => []
  | c :: rest =>
    if isSummaryTrigger (c :: rest) then
      divOpen ++ (rest.drop 3).take (lineLen (rest.drop 3)) ++ divClose ++
        replaceSummary ((rest.drop 3).drop (lineLen (rest.drop 3)))
    else c :: replaceSummary rest
termination_by l => l.length
decreasing_by
  all_goals simp [List.length_drop]
  all_goals omega

/-- Global replacement of double newlines by double break tags. -/
def replaceBr2 : JStr → JStr
  | [] => []
  | c :: rest =>
    if c = '\n' ∧ rest.take 1 = ['\n'] then
      brTag ++ brTag ++ replaceBr2 (rest.drop 1)
    else c :: replaceBr2 rest
termination_by l => l.length
decreasing_by
  all_goals simp [List.length_drop]
  all_goals omega

/-- Global replacement of remaining newlines by break tags. -/
def replaceBr1 : JStr → JStr
  | [] => []
  | c :: rest => if c = '\n' then brTag ++ replaceBr1 rest else c :: replaceBr1 rest

/-- The whole formatter pipeline on character lists. -/
def formatContentList (l : JStr) : JStr :=
  replaceBr1 (replaceBr2 (replaceSummary (replaceEm (replaceStrong (escapeEntities l)))))

/-- ChatMessage.formatContent: empty (falsy) content yields the empty string,
otherwise escape and then format. -/
def formatContent (s : String) : String :=
  if s = "" then "" else String.mk (formatContentList s.data)

/-- Tag set after the strong pass. -/
def strongTags : List JStr := [strongOpen, strongClose]

/-- Tag set after the em pass. -/
def emTags : List JStr := strongTags ++ [emOpen, emClose]

/-- Tag set after the summary pass. -/
def summaryTags : List JStr := emTags ++ [divOpen, divClose]

/-- Tag set after the break passes: all formatter-introduced tags. -/
def formatterTags : List JStr := summaryTags ++ [brTag]

/-- A character list is well-tagged over the tag set T when it is a
concatenation of non-angle-bracket characters and whole tags from T — so
every angle bracket in it belongs to a formatter-introduced tag occurrence. -/
inductive TaggedBy (T : List JStr) : JStr → Prop where
  | nil : TaggedBy T []
  | plain {c : Char} {rest : JStr} :
      c ≠ '<' → c ≠ '>' → TaggedBy T rest → TaggedBy T (c :: rest)
  | tag {t : JStr} {rest : JStr} :
      t ∈ T → TaggedBy T rest → TaggedBy T (t ++ rest)

/-- No angle bracket occurs in the list. -/
def NoAngle (l : JStr) : Prop := ∀ c ∈ l, c ≠ '<' ∧ c ≠ '>'

-- ===========================================================================
-- THEOREMS
-- ===========================================================================

/-- C5: for every duration input, including out-of-range or inverted values,
the sanitised duration bounds satisfy 1 ≤ min ≤ max ≤ 365: each bound is
clamped into [1, 365] and the two values are swapped when min exceeds max
after clamping. -/
theorem sanitizeDuration_bounds (dmin dmax : Int) :
    1 ≤ (sanitizeDuration dmin dmax).1 ∧
    (sanitizeDuration dmin dmax).1 ≤ (sanitizeDuration dmin dmax).2 ∧
    (sanitizeDuration dmin dmax).2 ≤ 365 := by
  have h1 : ∀ n : Int, 1 ≤ clampDuration n := fun n => le_max_left 1 _
  have h2 : ∀ n : Int, clampDuration n ≤ 365 :=
    fun n => max_le (by norm_num) (min_le_left _ _)
  unfold sanitizeDuration
  dsimp only
  split
  · rename_i hle
    exact ⟨h1 dmin, hle, h2 dmax⟩
  · rename_i hle
    exact ⟨h1 dmax, le_of_not_le hle, h2 dmin⟩

/-- C6: a fulfilled search whose package list is empty or missing renders the
no-results outcome, a rejected search renders the error outcome, and these
characterisations are exact, so no input can produce both outcomes or swap
them. -/
theorem searchOutcome_distinguishes (x : Except JStr SearchResponse) :
    (∀ e, searchOutcome x = .errorRendered e ↔ x = .error e) ∧
    (searchOutcome x = .noResultsRendered ↔
      ∃ r, x = .ok r ∧ (r.packages = none ∨ r.packages = some [])) := by
  constructor
  · intro e
    cases x with
    | error e₀ => simp [searchOutcome]
    | ok r =>
      cases h : r.packages with
      | none => simp [searchOutcome, h]
      | some ps => cases ps <;> simp [searchOutcome, h]
  · cases x with
    | error e₀ => simp [searchOutcome]
    | ok r =>
      cases h : r.packages with
      | none => simp [searchOutcome, h]
      | some ps => cases ps <;> simp [searchOutcome, h]

/-- C7: whenever the underlying request of the current attempt is aborted by
the timeout timer, both fetch wrappers stop immediately (no remaining attempt
is consumed) and surface a distinct thrown timeout error to the caller:
apiFetch throws exactly Request timed out., and APIService underscore-fetch
throws Request timed out. Please try again.; both messages begin with the
words Request timed out. -/
theorem fetch_timeout_surfaces (retries attempt maxRetries r2 : Nat)
    (rest rest2 : List FetchAttempt) :
    apiFetchLoop retries attempt (.abort :: rest) = .error "Request timed out.".data ∧
    serviceFetchLoop maxRetries r2 (.abort :: rest2) =
      .error "Request timed out. Please try again.".data ∧
    ("Request timed out.".data).isPrefixOf "Request timed out. Please try again.".data = true := by
  refine ⟨rfl, rfl, by decide⟩

/-- C7 witness: the timeout equations instantiated at concrete attempt lists. -/
theorem fetch_timeout_surfaces_witness :
    apiFetchLoop 2 0 [.abort, .ok ⟨none⟩] = .error "Request timed out.".data ∧
    serviceFetchLoop 2 0 [.abort] = .error "Request timed out. Please try again.".data ∧
    ("Request timed out.".data).isPrefixOf "Request timed out. Please try again.".data = true :=
  fetch_timeout_surfaces 2 0 2 0 [.ok ⟨none⟩] []

-- ---------------------------------------------------------------------------
-- Search-row state machine: helper lemmas.
-- ---------------------------------------------------------------------------

theorem destListInv_nil : DestListInv [] :=
  ⟨by simp, by simp, List.Pairwise.nil⟩

theorem destListInv_addDestList (ds : List JStr) (dest : JStr) (h : DestListInv ds) :
    DestListInv (addDestList ds dest) := by
  unfold addDestList
  dsimp only
  split
  · exact h
  · rename_i hsize
    split
    · exact h
    · rename_i hdup
      split
      · exact h
      · rename_i hfull
        obtain ⟨hlen, hchars, hpw⟩ := h
        push_neg at hsize
        refine ⟨?_, ?_, ?_⟩
        · simp only [List.length_append, List.length_singleton]
          omega
        · intro d hd
          rcases List.mem_append.mp hd with hd | hd
          · exact hchars d hd
          · simp only [List.mem_singleton] at hd
            subst hd
            exact hsize.2
        · rw [List.pairwise_append]
          refine ⟨hpw, List.pairwise_singleton _ _, ?_⟩
          intro a ha b hb
          simp only [List.mem_singleton] at hb
          subst hb
          intro hab
          exact hdup (List.any_eq_true.mpr ⟨a, ha, beq_iff_eq.mpr hab⟩)

theorem destListInv_sublist {l₁ l₂ : List JStr} (hs : l₁.Sublist l₂)
    (h : DestListInv l₂) : DestListInv l₁ := by
  obtain ⟨hlen, hchars, hpw⟩ := h
  exact ⟨le_trans hs.length_le hlen, fun d hd => hchars d (hs.mem hd), hpw.sublist hs⟩

theorem updateFirstRow_length (rid : Nat) (f : UIRow → UIRow) (l : List UIRow) :
    (updateFirstRow rid f l).length = l.length := by
  induction l with
  | nil => rfl
  | cons r rs ih =>
    unfold updateFirstRow
    split
    · simp
    · simp [ih]

theorem updateFirstRow_mem (rid : Nat) (f : UIRow → UIRow) (l : List UIRow)
    (r' : UIRow) (h : r' ∈ updateFirstRow rid f l) :
    r' ∈ l ∨ ∃ r ∈ l, r' = f r := by
  induction l with
  | nil => simp [updateFirstRow] at h
  | cons r rs ih =>
    unfold updateFirstRow at h
    split at h
    · rcases List.mem_cons.mp h with h | h
      · exact Or.inr ⟨r, List.mem_cons_self r rs, h⟩
      · exact Or.inl (List.mem_cons_of_mem _ h)
    · rcases List.mem_cons.mp h with h | h
      · subst h
        exact Or.inl (List.mem_cons_self _ _)
      · rcases ih h with h | ⟨r₀, hr₀, he⟩
        · exact Or.inl (List.mem_cons_of_mem _ h)
        · exact Or.inr ⟨r₀, List.mem_cons_of_mem _ hr₀, he⟩

theorem updateFirstRow_map_id (rid : Nat) (f : UIRow → UIRow)
    (hf : ∀ r, (f r).id = r.id) (l : List UIRow) :
    (updateFirstRow rid f l).map (fun r => r.id) = l.map (fun r => r.id) := by
  induction l with
  | nil => rfl
  | cons r rs ih =>
    unfold updateFirstRow
    split
    · simp [hf]
    · simp [ih]

theorem uiInv_updateFirstRow (s : UIState) (rid : Nat) (f : UIRow → UIRow)
    (hf : ∀ r, (f r).id = r.id)
    (hd : ∀ r, DestListInv r.destinations → DestListInv (f r).destinations)
    (h : UIStateInv s) :
    UIStateInv ⟨updateFirstRow rid f s.searchRows, s.nextRowId⟩ := by
  obtain ⟨hne, hpw, hlt, hdl⟩ := h
  refine ⟨?_, ?_, ?_, ?_⟩
  · intro hcon
    apply hne
    have hlen := updateFirstRow_length rid f s.searchRows
    have hcon2 : updateFirstRow rid f s.searchRows = [] := hcon
    rw [hcon2] at hlen
    exact List.length_eq_zero.mp hlen.symm
  · have hmap := updateFirstRow_map_id rid f hf s.searchRows
    have h₁ : List.Pairwise Ne (s.searchRows.map (fun r => r.id)) :=
      List.pairwise_map.mpr hpw
    rw [← hmap] at h₁
    exact List.pairwise_map.mp h₁
  · intro r' hr'
    rcases updateFirstRow_mem rid f s.searchRows r' hr' with hm | ⟨r, hr, he⟩
    · exact hlt r' hm
    · rw [he, hf]
      exact hlt r hr
  · intro r' hr'
    rcases updateFirstRow_mem rid f s.searchRows r' hr' with hm | ⟨r, hr, he⟩
    · exact hdl r' hm
    · rw [he]
      exact hd r (hdl r hr)

theorem uiInv_init : UIStateInv initialUIState := by
  refine ⟨by simp [initialUIState], ?_, ?_, ?_⟩
  · simp [initialUIState]
  · intro r hr
    simp only [initialUIState, List.mem_singleton] at hr
    subst hr
    simp [initialUIState]
  · intro r hr
    simp only [initialUIState, List.mem_singleton] at hr
    subst hr
    exact destListInv_nil

theorem uiInv_step (s : UIState) (a : UIAction) (h : UIStateInv s) :
    UIStateInv (applyUIAction s a) := by
  cases a with
  | addRow =>
    obtain ⟨hne, hpw, hlt, hdl⟩ := h
    refine ⟨by simp [applyUIAction, addSearchRow], ?_, ?_, ?_⟩
    · simp only [applyUIAction, addSearchRow]
      rw [List.pairwise_append]
      refine ⟨hpw, List.pairwise_singleton _ _, ?_⟩
      intro x hx y hy
      simp only [List.mem_singleton] at hy
      subst hy
      exact Nat.ne_of_lt (hlt x hx)
    · intro r hr
      simp only [applyUIAction, addSearchRow] at hr ⊢
      rcases List.mem_append.mp hr with hm | hm
      · exact Nat.lt_succ_of_lt (hlt r hm)
      · simp only [List.mem_singleton] at hm
        rw [hm]
        exact Nat.lt_succ_self _
    · intro r hr
      simp only [applyUIAction, addSearchRow] at hr
      rcases List.mem_append.mp hr with hm | hm
      · exact hdl r hm
      · simp only [List.mem_singleton] at hm
        rw [hm]
        exact destListInv_nil
  | removeRow rid =>
    obtain ⟨hne, hpw, hlt, hdl⟩ := h
    simp only [applyUIAction, removeSearchRow]
    split
    · exact ⟨hne, hpw, hlt, hdl⟩
    · rename_i hlong
      have hsub := List.filter_sublist (p := fun r => r.id != rid) s.searchRows
      refine ⟨?_, hpw.sublist hsub, fun r hr => hlt r (hsub.mem hr),
        fun r hr => hdl r (hsub.mem hr)⟩
      match hrows : s.searchRows with
      | [] => rw [hrows] at hne; exact absurd rfl hne
      | [r₁] => rw [hrows] at hlong; simp at hlong
      | r₁ :: r₂ :: t =>
        rw [hrows] at hpw
        have h12 : r₁.id ≠ r₂.id := (List.pairwise_cons.mp hpw).1 r₂ (List.mem_cons_self _ _)
        by_cases hc : r₁.id = rid
        · apply List.ne_nil_of_mem (a := r₂)
          rw [List.mem_filter]
          refine ⟨by simp [hrows], ?_⟩
          rw [bne_iff_ne]
          rw [hc] at h12
          exact fun he => h12 he.symm
        · apply List.ne_nil_of_mem (a := r₁)
          rw [List.mem_filter]
          exact ⟨by simp [hrows], bne_iff_ne.mpr hc⟩
  | addDest rid dest =>
    have := uiInv_updateFirstRow s rid
      (fun r => { r with destinations := addDestList r.destinations dest })
      (fun r => rfl) (fun r hr => destListInv_addDestList _ _ hr) h
    exact this
  | removeDest rid dest =>
    have := uiInv_updateFirstRow s rid
      (fun r => { r with destinations := r.destinations.filter (fun d => d != dest) })
      (fun r => rfl)
      (fun r hr => destListInv_sublist (List.filter_sublist _) hr) h
    exact this
  | clearAll => exact uiInv_init

theorem uiInv_run (acts : List UIAction) : UIStateInv (runUIActions acts) := by
  suffices h : ∀ s, UIStateInv s → UIStateInv (acts.foldl applyUIAction s) from
    h _ uiInv_init
  induction acts with
  | nil => exact fun s hs => hs
  | cons a as ih => exact fun s hs => ih _ (uiInv_step s a hs)

/-- C10: in every state reachable by any sequence of add-row, remove-row,
clear-all (and destination) operations, the search-row list is non-empty and
all row ids are pairwise distinct; clear-all resets to exactly one empty
includes-mode row. -/
theorem searchRows_nonempty_distinct (acts : List UIAction) (s : UIState) :
    (runUIActions acts).searchRows ≠ [] ∧
    List.Pairwise (fun a b => a.id ≠ b.id) (runUIActions acts).searchRows ∧
    applyUIAction s .clearAll = ⟨[⟨1, [], RowMode.includes⟩], 2⟩ := by
  obtain ⟨h1, h2, _, _⟩ := uiInv_run acts
  exact ⟨h1, h2, rfl⟩

/-- C4: in every reachable state every search row holds at most 10
destinations, each at most 100 characters after trimming (entries are stored
trimmed), no two equal up to case; and an add that would violate any of
these bounds leaves the destination list unchanged. -/
theorem destList_invariant (acts : List UIAction) (r : UIRow)
    (hr : r ∈ (runUIActions acts).searchRows) (ds : List JStr) (dest : JStr)
    (hviol : jsTrim dest = [] ∨ 100 < (jsTrim dest).length ∨
      ds.any (fun d => jsToLower d == jsToLower (jsTrim dest)) = true ∨
      10 ≤ ds.length) :
    r.destinations.length ≤ 10 ∧ (∀ d ∈ r.destinations, d.length ≤ 100) ∧
    List.Pairwise (fun a b => jsToLower a ≠ jsToLower b) r.destinations ∧
    addDestList ds dest = ds := by
  obtain ⟨_, _, _, hdl⟩ := uiInv_run acts
  obtain ⟨h1, h2, h3⟩ := hdl r hr
  refine ⟨h1, h2, h3, ?_⟩
  unfold addDestList
  dsimp only
  rcases hviol with hv | hv | hv | hv
  · rw [if_pos (Or.inl hv)]
  · rw [if_pos (Or.inr hv)]
  · by_cases hA : jsTrim dest = [] ∨ 100 < (jsTrim dest).length
    · rw [if_pos hA]
    · rw [if_neg hA, if_pos hv]
  · by_cases hA : jsTrim dest = [] ∨ 100 < (jsTrim dest).length
    · rw [if_pos hA]
    · rw [if_neg hA]
      by_cases hB : (ds.any fun d => jsToLower d == jsToLower (jsTrim dest)) = true
      · rw [if_pos hB]
      · rw [if_neg hB, if_pos hv]

/-- C4 witness: the invariant and the no-op clause at concrete inputs. -/
theorem destList_invariant_witness :
    (⟨1, ["Rome".data], RowMode.includes⟩ : UIRow) ∈
      (runUIActions [UIAction.addDest 1 "Rome".data]).searchRows ∧
    ((⟨1, ["Rome".data], RowMode.includes⟩ : UIRow).destinations.length ≤ 10 ∧
      (∀ d ∈ (⟨1, ["Rome".data], RowMode.includes⟩ : UIRow).destinations,
        d.length ≤ 100) ∧
      List.Pairwise (fun a b => jsToLower a ≠ jsToLower b)
        (⟨1, ["Rome".data], RowMode.includes⟩ : UIRow).destinations ∧
      addDestList [] "  ".data = []) :=
  ⟨by decide,
    destList_invariant [UIAction.addDest 1 "Rome".data]
      ⟨1, ["Rome".data], RowMode.includes⟩ (by decide) [] "  ".data
      (Or.inl (by decide))⟩

/-- C3 counterexample: after six add-destination and five add-row actions the
request built by buildFilters carries six search rows, exceeding five. -/
theorem searchRows_can_exceed_five :
    (buildSearchRows (runUIActions overflowActions)).length = 6 ∧
    ¬ (buildSearchRows (runUIActions overflowActions)).length ≤ 5 := by
  decide

/-- C3 amended: the request built by buildFilters carries exactly one search
row per state row with a non-empty destination list — a count the client does
not cap at 5 — and every carried row has between 1 and 10 destinations. -/
theorem buildSearchRows_counts (acts : List UIAction) :
    (buildSearchRows (runUIActions acts)).length =
      List.countP (fun r => !r.destinations.isEmpty) (runUIActions acts).searchRows ∧
    (buildSearchRows (runUIActions acts)).all
      (fun fr => !fr.destinations.isEmpty && decide (fr.destinations.length ≤ 10)) = true := by
  constructor
  · unfold buildSearchRows
    rw [List.length_map, ← List.countP_eq_length_filter]
  · rw [List.all_eq_true]
    intro fr hfr
    unfold buildSearchRows at hfr
    obtain ⟨r, hrm, hfr⟩ := List.mem_map.mp hfr
    obtain ⟨hrs, hne⟩ := List.mem_filter.mp hrm
    obtain ⟨_, _, _, hdl⟩ := uiInv_run acts
    obtain ⟨h1, _, _⟩ := hdl r hrs
    rw [← hfr]
    simp only [Bool.and_eq_true, decide_eq_true_eq]
    exact ⟨hne, h1⟩

-- ---------------------------------------------------------------------------
-- Autosuggest ranking: helper lemmas.
-- ---------------------------------------------------------------------------

theorem localeCmp_cons_le (a b : Char) (as bs : JStr) :
    localeCmp (a :: as) (b :: bs) ≤ 0 ↔ a < b ∨ (a = b ∧ localeCmp as bs ≤ 0) := by
  by_cases h1 : a < b
  · simp [localeCmp, h1]
  · by_cases h2 : b < a
    · have hne : a ≠ b := ne_of_gt h2
      simp [localeCmp, h1, h2, hne]
    · have he : a = b := le_antisymm (not_lt.mp h2) (not_lt.mp h1)
      simp [localeCmp, h1, h2, he]

theorem localeCmp_total (a b : JStr) : localeCmp a b ≤ 0 ∨ localeCmp b a ≤ 0 := by
  induction a generalizing b with
  | nil => cases b <;> simp [localeCmp]
  | cons x as ih =>
    cases b with
    | nil => simp [localeCmp]
    | cons y bs =>
      rw [localeCmp_cons_le, localeCmp_cons_le]
      rcases lt_trichotomy x y with h | h | h
      · exact Or.inl (Or.inl h)
      · rcases ih bs with hr | hr
        · exact Or.inl (Or.inr ⟨h, hr⟩)
        · exact Or.inr (Or.inr ⟨h.symm, hr⟩)
      · exact Or.inr (Or.inl h)

theorem localeCmp_trans (a b c : JStr) (h1 : localeCmp a b ≤ 0)
    (h2 : localeCmp b c ≤ 0) : localeCmp a c ≤ 0 := by
  induction a generalizing b c with
  | nil => cases c <;> simp [localeCmp]
  | cons x as ih =>
    cases b with
    | nil => simp [localeCmp] at h1
    | cons y bs =>
      cases c with
      | nil => simp [localeCmp] at h2
      | cons z cs =>
        rw [localeCmp_cons_le] at h1 h2 ⊢
        rcases h1 with h1 | ⟨hxy, h1⟩
        · rcases h2 with h2 | ⟨hyz, h2⟩
          · exact Or.inl (lt_trans h1 h2)
          · exact Or.inl (by rw [← hyz]; exact h1)
        · rcases h2 with h2 | ⟨hyz, h2⟩
          · exact Or.inl (by rw [hxy]; exact h2)
          · exact Or.inr ⟨hxy.trans hyz, ih bs cs h1 h2⟩

theorem suggestRel_iff (ql a b : JStr) :
    suggestRel ql a b ↔ threeKeyOrder ql a b := by
  unfold suggestRel suggestCmp threeKeyOrder
  by_cases hpa : ql.isPrefixOf (jsToLower a) = true <;>
    by_cases hpb : ql.isPrefixOf (jsToLower b) = true
  · simp only [hpa, hpb, if_true, ne_eq, not_true_eq_false, if_false]
    by_cases hl : a.length = b.length
    · simp [hl]
    · simp only [hl, if_true, hpa, hpb, if_false, not_false_iff]
      constructor
      · intro h
        refine Or.inr ⟨trivial, Or.inl ?_⟩
        omega
      · rintro (⟨_, hf⟩ | ⟨_, hlen | ⟨he, _⟩⟩)
        · exact absurd hf (by decide)
        · omega
        · exact he.elim
  · have hpb2 : ql.isPrefixOf (jsToLower b) = false := by
      revert hpb; cases ql.isPrefixOf (jsToLower b) <;> simp
    simp [hpa, hpb2]
  · have hpa2 : ql.isPrefixOf (jsToLower a) = false := by
      revert hpa; cases ql.isPrefixOf (jsToLower a) <;> simp
    simp [hpa2, hpb]
  · have hpa2 : ql.isPrefixOf (jsToLower a) = false := by
      revert hpa; cases ql.isPrefixOf (jsToLower a) <;> simp
    have hpb2 : ql.isPrefixOf (jsToLower b) = false := by
      revert hpb; cases ql.isPrefixOf (jsToLower b) <;> simp
    simp only [hpa2, hpb2, if_false, ne_eq, not_true_eq_false, not_false_iff, if_true]
    by_cases hl : a.length = b.length
    · simp [hl]
    · simp only [hl, if_true, if_false, not_false_iff]
      constructor
      · intro h
        refine Or.inr ⟨trivial, Or.inl ?_⟩
        omega
      · rintro (⟨hf, _⟩ | ⟨_, hlen | ⟨he, _⟩⟩)
        · exact absurd hf (by decide)
        · omega
        · exact he.elim

theorem suggestRel_total (ql a b : JStr) : suggestRel ql a b ∨ suggestRel ql b a := by
  rw [suggestRel_iff, suggestRel_iff]
  by_cases hpa : ql.isPrefixOf (jsToLower a) = true <;>
    by_cases hpb : ql.isPrefixOf (jsToLower b) = true
  · rcases Nat.lt_trichotomy a.length b.length with h | h | h
    · exact Or.inl (Or.inr ⟨by rw [hpa, hpb], Or.inl h⟩)
    · rcases localeCmp_total a b with hc | hc
      · exact Or.inl (Or.inr ⟨by rw [hpa, hpb], Or.inr ⟨h, hc⟩⟩)
      · exact Or.inr (Or.inr ⟨by rw [hpa, hpb], Or.inr ⟨h.symm, hc⟩⟩)
    · exact Or.inr (Or.inr ⟨by rw [hpa, hpb], Or.inl h⟩)
  · have hpb2 : ql.isPrefixOf (jsToLower b) = false := by
      revert hpb; cases ql.isPrefixOf (jsToLower b) <;> simp
    exact Or.inl (Or.inl ⟨hpa, hpb2⟩)
  · have hpa2 : ql.isPrefixOf (jsToLower a) = false := by
      revert hpa; cases ql.isPrefixOf (jsToLower a) <;> simp
    exact Or.inr (Or.inl ⟨hpb, hpa2⟩)
  · have hpa2 : ql.isPrefixOf (jsToLower a) = false := by
      revert hpa; cases ql.isPrefixOf (jsToLower a) <;> simp
    have hpb2 : ql.isPrefixOf (jsToLower b) = false := by
      revert hpb; cases ql.isPrefixOf (jsToLower b) <;> simp
    rcases Nat.lt_trichotomy a.length b.length with h | h | h
    · exact Or.inl (Or.inr ⟨by rw [hpa2, hpb2], Or.inl h⟩)
    · rcases localeCmp_total a b with hc | hc
      · exact Or.inl (Or.inr ⟨by rw [hpa2, hpb2], Or.inr ⟨h, hc⟩⟩)
      · exact Or.inr (Or.inr ⟨by rw [hpa2, hpb2], Or.inr ⟨h.symm, hc⟩⟩)
    · exact Or.inr (Or.inr ⟨by rw [hpa2, hpb2], Or.inl h⟩)

theorem suggestRel_trans (ql a b c : JStr) (h1 : suggestRel ql a b)
    (h2 : suggestRel ql b c) : suggestRel ql a c := by
  rw [suggestRel_iff] at h1 h2 ⊢
  rcases h1 with ⟨hpa, hpb⟩ | ⟨hab, hl1⟩
  · rcases h2 with ⟨hpb2, _⟩ | ⟨hbc, hl2⟩
    · rw [hpb] at hpb2
      exact absurd hpb2 (by simp)
    · exact Or.inl ⟨hpa, by rw [← hbc]; exact hpb⟩
  · rcases h2 with ⟨hpb2, hpc⟩ | ⟨hbc, hl2⟩
    · exact Or.inl ⟨by rw [hab]; exact hpb2, hpc⟩
    · refine Or.inr ⟨hab.trans hbc, ?_⟩
      rcases hl1 with hl1 | ⟨he1, hc1⟩
      · rcases hl2 with hl2 | ⟨he2, _⟩
        · exact Or.inl (lt_trans hl1 hl2)
        · exact Or.inl (by omega)
      · rcases hl2 with hl2 | ⟨he2, hc2⟩
        · exact Or.inl (by omega)
        · exact Or.inr ⟨he1.trans he2, localeCmp_trans a b c hc1 hc2⟩

/-- C2 amended: the autosuggest re-ranking returns the prefix of length at
most limit of a permutation of the candidates sorted by the three keys —
prefix match before substring-only match, shorter before longer, then
lexicographic; for query lon and candidates London, Glonwick, Bologna the
output order is London, Bologna, Glonwick (Bologna, being shorter, precedes
Glonwick among the non-prefix candidates). -/
theorem rankSuggestions_spec (query : JStr) (items : List JStr) (limit : Nat) :
    (∃ l : List JStr, l.Perm items ∧
      List.Sorted (threeKeyOrder (jsToLower query)) l ∧
      rankSuggestions query items limit = l.take limit) ∧
    rankSuggestions "lon".data ["London".data, "Glonwick".data, "Bologna".data] 12 =
      ["London".data, "Bologna".data, "Glonwick".data] := by
  constructor
  · refine ⟨List.insertionSort (suggestRel (jsToLower query)) items,
      List.perm_insertionSort _ _, ?_, rfl⟩
    have hs : List.Sorted (suggestRel (jsToLower query))
        (List.insertionSort (suggestRel (jsToLower query)) items) := by
      haveI : IsTotal JStr (suggestRel (jsToLower query)) :=
        ⟨fun a b => suggestRel_total _ a b⟩
      haveI : IsTrans JStr (suggestRel (jsToLower query)) :=
        ⟨fun a b c => suggestRel_trans _ a b c⟩
      exact List.sorted_insertionSort _ _
    exact List.Pairwise.imp (fun h => (suggestRel_iff _ _ _).mp h) hs
  · decide

/-- C2 counterexample: for query lon and candidates London, Glonwick, Bologna
the re-ranking does not return the order London, Glonwick, Bologna claimed by
the spec example: the length key places the shorter Bologna before Glonwick. -/
theorem rankSuggestions_example_refuted :
    rankSuggestions "lon".data ["London".data, "Glonwick".data, "Bologna".data] 12 ≠
      ["London".data, "Glonwick".data, "Bologna".data] := by decide

-- ---------------------------------------------------------------------------
-- Result-scoped facet derivation (C8).
-- ---------------------------------------------------------------------------

/-- C8 counterexample: a response whose available underscore filters carries
the duration range 0 to 40 does not leave the panel with that range — the
zero minimum falls back to the default 2, so the stored range is 2 to 40,
refuting exact equality with the carried duration range. -/
theorem updateFilters_duration_refuted :
    afZeroMin.duration_range = some ⟨0, 40⟩ ∧
    (updateFiltersFromResults afZeroMin panelState0).durationRange ≠ ⟨0, 40⟩ ∧
    (updateFiltersFromResults afZeroMin panelState0).durationRange = ⟨2, 40⟩ := by
  refine ⟨rfl, ?_, rfl⟩
  decide

/-- C8 amended: after a search carrying available underscore filters, the
facet option lists equal exactly the blank-filtered lists of that object
(regions plus countries combined for the region panel); the duration range
equals the carried one except that zero or absent bounds fall back to the 2
and 34 defaults and an absent duration range keeps the previous one; every
previously selected value not in the new list is removed; the cached
filterOptions object is untouched; and the option lists depend only on the
available underscore filters object, not on the prior state. -/
theorem updateFilters_spec (af : AvailableFilters) (s s₂ : PanelState) :
    (updateFiltersFromResults af s).allRegionItems =
      keepNonBlank af.regions ++ keepNonBlank af.countries ∧
    (updateFiltersFromResults af s).allTrainNames = keepNonBlank af.train_names ∧
    (updateFiltersFromResults af s).allVacationTypes = keepNonBlank af.vacation_types ∧
    (updateFiltersFromResults af s).durationRange =
      (match af.duration_range with
       | some d => ⟨jsOrDefault d.min 2, jsOrDefault d.max 34⟩
       | none => s.durationRange) ∧
    (∀ r, r ∈ (updateFiltersFromResults af s).selectedRegions ↔
      r ∈ s.selectedRegions ∧
        ((updateFiltersFromResults af s).allRegionItems.contains r = true)) ∧
    (∀ t, t ∈ (updateFiltersFromResults af s).selectedTrains ↔
      t ∈ s.selectedTrains ∧
        ((updateFiltersFromResults af s).allTrainNames.contains t = true)) ∧
    (∀ v, v ∈ (updateFiltersFromResults af s).selectedVacTypes ↔
      v ∈ s.selectedVacTypes ∧
        ((updateFiltersFromResults af s).allVacationTypes.contains v = true)) ∧
    (updateFiltersFromResults af s).filterOptions = s.filterOptions ∧
    (updateFiltersFromResults af s).allRegionItems =
      (updateFiltersFromResults af s₂).allRegionItems ∧
    (updateFiltersFromResults af s).allTrainNames =
      (updateFiltersFromResults af s₂).allTrainNames ∧
    (updateFiltersFromResults af s).allVacationTypes =
      (updateFiltersFromResults af s₂).allVacationTypes := by
  refine ⟨rfl, rfl, rfl, rfl, ?_, ?_, ?_, rfl, rfl, rfl, rfl⟩
  · intro r
    exact List.mem_filter
  · intro t
    exact List.mem_filter
  · intro v
    exact List.mem_filter

-- ---------------------------------------------------------------------------
-- Progressive fallback (C1).
-- ---------------------------------------------------------------------------

theorem primaryOK_dropStep (f : EngineFilters) (k : RelaxStep) (p : EnginePackage) :
    primaryOK (dropStep f k) p = primaryOK f p := by
  cases k <;> rfl

theorem matchesFilter_primary (f : EngineFilters) (p : EnginePackage)
    (h : matchesFilter f p = true) : primaryOK f p = true := by
  unfold matchesFilter at h
  rw [Bool.and_eq_true, Bool.and_eq_true] at h
  exact h.1.2

theorem fallbackGo_primary (catalog : List EnginePackage) (keys : List RelaxStep)
    (f : EngineFilters) (level : Nat) (p : EnginePackage)
    (h : p ∈ (fallbackGo catalog f keys level).1) : primaryOK f p = true := by
  induction keys generalizing f level with
  | nil =>
    unfold fallbackGo at h
    by_cases hres : (catalog.filter (matchesFilter f)).isEmpty = true
    · rw [if_pos hres] at h
      simp at h
    · rw [if_neg hres] at h
      exact matchesFilter_primary f p (List.mem_filter.mp h).2
  | cons k ks ih =>
    unfold fallbackGo at h
    by_cases hres : (catalog.filter (matchesFilter f)).isEmpty = true
    · rw [if_pos hres] at h
      have := ih (dropStep f k) (level + 1) h
      rw [primaryOK_dropStep] at this
      exact this
    · rw [if_neg hres] at h
      exact matchesFilter_primary f p (List.mem_filter.mp h).2

/-- C1: every row returned by the search operation satisfies all of the
request's primary filters — every search row with its includes / starts-in /
ends-in constraint, the legacy includes / starts-in / ends-in filters,
region, and package-name search — even when the fallback controller has
relaxed secondary filters; the engine never returns a row whose start, end
or included-city fails the originally specified constraint. -/
theorem fallback_preserves_primary (catalog : List EnginePackage)
    (f : EngineFilters) (p : EnginePackage)
    (h : p ∈ (fallbackSearch catalog f).1) : primaryOK f p = true :=
  fallbackGo_primary catalog relaxOrder f 0 p h

/-- C1 witness: a request whose vacation-type filter matches nothing is
relaxed three steps, the row is then found, and it satisfies every primary
clause of the original request. -/
theorem fallback_preserves_primary_witness :
    demoPackage ∈ (fallbackSearch [demoPackage] demoFilters).1 ∧
    (fallbackSearch [demoPackage] demoFilters).2 = 3 ∧
    primaryOK demoFilters demoPackage = true :=
  ⟨by decide, by decide,
    fallback_preserves_primary [demoPackage] demoFilters demoPackage (by decide)⟩

-- ---------------------------------------------------------------------------
-- Content formatter (C9): equation lemmas for the scanners.
-- ---------------------------------------------------------------------------

theorem replaceStrong_nil : replaceStrong [] = [] := by
  unfold replaceStrong
  rfl

theorem replaceStrong_cons (c : Char) (rest : JStr) :
    replaceStrong (c :: rest) =
      if c = '*' ∧ rest.take 1 = ['*'] then
        match findClose (rest.drop 1) with
        | some i =>
          strongOpen ++ (rest.drop 1).take i ++ strongClose ++
            replaceStrong ((rest.drop 1).drop (i + 2))
        | none => c :: replaceStrong rest
      else c :: replaceStrong rest := by
  conv_lhs => unfold replaceStrong

theorem replaceEm_nil : replaceEm [] = [] := by
  unfold replaceEm
  rfl

theorem replaceEm_cons (c : Char) (rest : JStr) :
    replaceEm (c :: rest) =
      if c = '*' then
        match findCloseEm rest with
        | some i => emOpen ++ rest.take i ++ emClose ++ replaceEm (rest.drop (i + 1))
        | none => c :: replaceEm rest
      else c :: replaceEm rest := by
  conv_lhs => unfold replaceEm

theorem replaceSummary_nil : replaceSummary [] = [] := by
  unfold replaceSummary
  rfl

theorem replaceSummary_cons (c : Char) (rest : JStr) :
    replaceSummary (c :: rest) =
      if isSummaryTrigger (c :: rest) then
        divOpen ++ (rest.drop 3).take (lineLen (rest.drop 3)) ++ divClose ++
          replaceSummary ((rest.drop 3).drop (lineLen (rest.drop 3)))
      else c :: replaceSummary rest := by
  conv_lhs => unfold replaceSummary

theorem replaceBr2_nil : replaceBr2 [] = [] := by
  unfold replaceBr2
  rfl

theorem replaceBr2_cons (c : Char) (rest : JStr) :
    replaceBr2 (c :: rest) =
      if c = '\n' ∧ rest.take 1 = ['\n'] then
        brTag ++ brTag ++ replaceBr2 (rest.drop 1)
      else c :: replaceBr2 rest := by
  conv_lhs => unfold replaceBr2

-- ---------------------------------------------------------------------------
-- Content formatter (C9): TaggedBy basics.
-- ---------------------------------------------------------------------------

theorem taggedBy_mono {T T2 : List JStr} (hsub : T ⊆ T2) {l : JStr}
    (h : TaggedBy T l) : TaggedBy T2 l := by
  induction h with
  | nil => exact TaggedBy.nil
  | plain h1 h2 _ ih => exact TaggedBy.plain h1 h2 ih
  | tag ht _ ih => exact TaggedBy.tag (hsub ht) ih

theorem taggedBy_append {T : List JStr} {a b : JStr} (ha : TaggedBy T a)
    (hb : TaggedBy T b) : TaggedBy T (a ++ b) := by
  induction ha with
  | nil => exact hb
  | plain h1 h2 _ ih => exact TaggedBy.plain h1 h2 ih
  | tag ht _ ih =>
    rw [List.append_assoc]
    exact TaggedBy.tag ht ih

theorem taggedBy_of_mem {T : List JStr} {t : JStr} (h : t ∈ T) : TaggedBy T t := by
  have h2 := TaggedBy.tag h TaggedBy.nil
  rwa [List.append_nil] at h2

theorem noAngle_taggedBy {T : List JStr} {l : JStr} (h : NoAngle l) : TaggedBy T l := by
  induction l with
  | nil => exact TaggedBy.nil
  | cons c rest ih =>
    obtain ⟨h1, h2⟩ := h c (List.mem_cons_self _ _)
    exact TaggedBy.plain h1 h2 (ih (fun x hx => h x (List.mem_cons_of_mem _ hx)))

theorem noAngle_sub {l l2 : JStr} (h : NoAngle l) (hsub : ∀ c ∈ l2, c ∈ l) :
    NoAngle l2 :=
  fun c hc => h c (hsub c hc)

theorem taggedBy_split {T : List JStr} {d : Char} (hd : ∀ t ∈ T, d ∉ t)
    {u v : JStr} (h : TaggedBy T (u ++ d :: v)) : TaggedBy T u ∧ TaggedBy T v := by
  have key : ∀ s, TaggedBy T s → ∀ u2 v2 : JStr, s = u2 ++ d :: v2 →
      TaggedBy T u2 ∧ TaggedBy T v2 := by
    intro s hs
    induction hs with
    | nil =>
      intro u2 v2 he
      exact absurd he.symm (by simp)
    | plain h1 h2 h3 ih =>
      intro u2 v2 he
      cases u2 with
      | nil =>
        simp only [List.nil_append] at he
        injection he with ha hb
        subst hb
        exact ⟨TaggedBy.nil, h3⟩
      | cons x xs =>
        rw [List.cons_append] at he
        injection he with ha hb
        subst ha
        obtain ⟨hu, hv⟩ := ih xs v2 hb
        exact ⟨TaggedBy.plain h1 h2 hu, hv⟩
    | tag ht h3 ih =>
      rename_i t0 rest0
      intro u2 v2 he
      rcases List.append_eq_append_iff.mp he with ⟨a2, hu2, hrest⟩ | ⟨c2, ht2, hdv⟩
      · obtain ⟨hu, hv⟩ := ih a2 v2 hrest
        rw [hu2]
        exact ⟨TaggedBy.tag ht hu, hv⟩
      · cases c2 with
        | nil =>
          rw [List.append_nil] at ht2
          simp only [List.nil_append] at hdv
          obtain ⟨-, hv⟩ := ih [] v2 (by rw [List.nil_append]; exact hdv.symm)
          refine ⟨?_, hv⟩
          rw [← ht2]
          exact taggedBy_of_mem ht
        | cons y ys =>
          rw [List.cons_append] at hdv
          injection hdv with hy _
          exfalso
          apply hd _ ht
          rw [ht2, hy]
          exact List.mem_append.mpr (Or.inr (List.mem_cons_self _ _))
  exact key _ h u v rfl

theorem taggedBy_cons_plain {T : List JStr} (hT : ∀ t ∈ T, t.head? = some '<')
    {c : Char} {rest : JStr} (h : TaggedBy T (c :: rest)) (hc : c ≠ '<') :
    c ≠ '>' ∧ TaggedBy T rest := by
  have key : ∀ s, TaggedBy T s → s = c :: rest → c ≠ '>' ∧ TaggedBy T rest := by
    intro s hs
    cases hs with
    | nil =>
      intro he
      exact absurd he (by simp)
    | plain h1 h2 h3 =>
      intro he
      injection he with ha hb
      subst ha
      subst hb
      exact ⟨h2, h3⟩
    | tag ht h3 =>
      intro he
      rename_i t rest2
      cases t with
      | nil =>
        have := hT _ ht
        simp at this
      | cons x xs =>
        have hx := hT _ ht
        simp only [List.head?] at hx
        injection hx with hx
        rw [List.cons_append] at he
        injection he with ha _
        exact absurd (show c = '<' by rw [← ha]; exact hx) hc
  exact key _ h rfl

theorem taggedBy_cons_lt {T : List JStr} {rest : JStr}
    (h : TaggedBy T ('<' :: rest)) :
    ∃ t ∈ T, ∃ rest2, '<' :: rest = t ++ rest2 ∧ TaggedBy T rest2 := by
  have key : ∀ s, TaggedBy T s → s = '<' :: rest →
      ∃ t ∈ T, ∃ rest2, '<' :: rest = t ++ rest2 ∧ TaggedBy T rest2 := by
    intro s hs
    cases hs with
    | nil =>
      intro he
      exact absurd he (by simp)
    | plain h1 h2 h3 =>
      intro he
      injection he with ha _
      exact absurd ha h1
    | tag ht h3 =>
      intro he
      rename_i t rest2
      exact ⟨t, ht, rest2, he.symm, h3⟩
  exact key _ h rfl

-- ---------------------------------------------------------------------------
-- Content formatter (C9): the escape stage removes every angle bracket.
-- ---------------------------------------------------------------------------

theorem escLt_noLt (l : JStr) : ∀ c ∈ escLt l, c ≠ '<' := by
  induction l with
  | nil => intro c hc; simp [escLt] at hc
  | cons x r ih =>
    intro c hc
    by_cases hx : x = '<'
    · rw [show escLt (x :: r) = "&lt;".data ++ escLt r by simp [escLt, hx]] at hc
      rcases List.mem_append.mp hc with hm | hm
      · have hent : ∀ ch ∈ "&lt;".data, ch ≠ '<' := by decide
        exact hent c hm
      · exact ih c hm
    · rw [show escLt (x :: r) = x :: escLt r by simp [escLt, hx]] at hc
      rcases List.mem_cons.mp hc with hm | hm
      · rw [hm]; exact hx
      · exact ih c hm

theorem escGt_noAngle (l : JStr) (h : ∀ c ∈ l, c ≠ '<') : NoAngle (escGt l) := by
  induction l with
  | nil => intro c hc; simp [escGt] at hc
  | cons x r ih =>
    intro c hc
    by_cases hx : x = '>'
    · rw [show escGt (x :: r) = "&gt;".data ++ escGt r by simp [escGt, hx]] at hc
      rcases List.mem_append.mp hc with hm | hm
      · have hent : ∀ ch ∈ "&gt;".data, ch ≠ '<' ∧ ch ≠ '>' := by decide
        exact hent c hm
      · exact ih (fun d hd => h d (List.mem_cons_of_mem _ hd)) c hm
    · rw [show escGt (x :: r) = x :: escGt r by simp [escGt, hx]] at hc
      rcases List.mem_cons.mp hc with hm | hm
      · rw [hm]
        exact ⟨h x (List.mem_cons_self _ _), hx⟩
      · exact ih (fun d hd => h d (List.mem_cons_of_mem _ hd)) c hm

theorem escQuot_noAngle (l : JStr) (h : NoAngle l) : NoAngle (escQuot l) := by
  induction l with
  | nil => intro c hc; simp [escQuot] at hc
  | cons x r ih =>
    intro c hc
    by_cases hx : x = '"'
    · rw [show escQuot (x :: r) = "&quot;".data ++ escQuot r by simp [escQuot, hx]] at hc
      rcases List.mem_append.mp hc with hm | hm
      · have hent : ∀ ch ∈ "&quot;".data, ch ≠ '<' ∧ ch ≠ '>' := by decide
        exact hent c hm
      · exact ih (fun d hd => h d (List.mem_cons_of_mem _ hd)) c hm
    · rw [show escQuot (x :: r) = x :: escQuot r by simp [escQuot, hx]] at hc
      rcases List.mem_cons.mp hc with hm | hm
      · rw [hm]
        exact h x (List.mem_cons_self _ _)
      · exact ih (fun d hd => h d (List.mem_cons_of_mem _ hd)) c hm

theorem escApos_noAngle (l : JStr) (h : NoAngle l) : NoAngle (escApos l) := by
  induction l with
  | nil => intro c hc; simp [escApos] at hc
  | cons x r ih =>
    intro c hc
    by_cases hx : x = '\''
    · rw [show escApos (x :: r) = "&#039;".data ++ escApos r by simp [escApos, hx]] at hc
      rcases List.mem_append.mp hc with hm | hm
      · have hent : ∀ ch ∈ "&#039;".data, ch ≠ '<' ∧ ch ≠ '>' := by decide
        exact hent c hm
      · exact ih (fun d hd => h d (List.mem_cons_of_mem _ hd)) c hm
    · rw [show escApos (x :: r) = x :: escApos r by simp [escApos, hx]] at hc
      rcases List.mem_cons.mp hc with hm | hm
      · rw [hm]
        exact h x (List.mem_cons_self _ _)
      · exact ih (fun d hd => h d (List.mem_cons_of_mem _ hd)) c hm

theorem escapeEntities_noAngle (l : JStr) : NoAngle (escapeEntities l) := by
  unfold escapeEntities
  exact escApos_noAngle _ (escQuot_noAngle _ (escGt_noAngle _ (escLt_noLt (escAmp l))))

-- ---------------------------------------------------------------------------
-- Content formatter (C9): scanner decomposition lemmas.
-- ---------------------------------------------------------------------------

theorem findClose_spec (l : JStr) (i : Nat) (h : findClose l = some i) :
    l.take i ++ '*' :: '*' :: l.drop (i + 2) = l := by
  induction l generalizing i with
  | nil => simp [findClose] at h
  | cons c rest ih =>
    rw [show findClose (c :: rest) =
        (if c = '*' ∧ rest.take 1 = ['*'] then some 0
         else if c = '\n' then none
         else (findClose rest).map (· + 1)) from rfl] at h
    by_cases h1 : c = '*' ∧ rest.take 1 = ['*']
    · rw [if_pos h1] at h
      injection h with hi
      subst hi
      obtain ⟨hc, ht⟩ := h1
      subst hc
      cases rest with
      | nil => simp at ht
      | cons y ys =>
        have hy : y = '*' := by simpa using ht
        subst hy
        rfl
    · rw [if_neg h1] at h
      by_cases h2 : c = '\n'
      · rw [if_pos h2] at h
        exact absurd h (by simp)
      · rw [if_neg h2] at h
        cases hf : findClose rest with
        | none =>
          rw [hf] at h
          simp at h
        | some j =>
          rw [hf] at h
          simp only [Option.map_some'] at h
          injection h with hi
          subst hi
          have e2 : (c :: rest).drop (j + 1 + 2) = rest.drop (j + 2) := by
            rw [show j + 1 + 2 = (j + 2) + 1 by omega, List.drop_succ_cons]
          rw [List.take_succ_cons, e2, List.cons_append]
          exact congrArg (List.cons c) (ih j hf)

theorem findCloseEm_spec (l : JStr) (i : Nat) (h : findCloseEm l = some i) :
    l.take i ++ '*' :: l.drop (i + 1) = l := by
  induction l generalizing i with
  | nil => simp [findCloseEm] at h
  | cons c rest ih =>
    rw [show findCloseEm (c :: rest) =
        (if c = '*' then some 0
         else if c = '\n' then none
         else (findCloseEm rest).map (· + 1)) from rfl] at h
    by_cases h1 : c = '*'
    · rw [if_pos h1] at h
      injection h with hi
      subst hi
      subst h1
      rfl
    · rw [if_neg h1] at h
      by_cases h2 : c = '\n'
      · rw [if_pos h2] at h
        exact absurd h (by simp)
      · rw [if_neg h2] at h
        cases hf : findCloseEm rest with
        | none =>
          rw [hf] at h
          simp at h
        | some j =>
          rw [hf] at h
          simp only [Option.map_some'] at h
          injection h with hi
          subst hi
          have e2 : (c :: rest).drop (j + 1 + 1) = rest.drop (j + 1) := by
            rw [show j + 1 + 1 = (j + 1) + 1 by omega, List.drop_succ_cons]
          rw [List.take_succ_cons, e2, List.cons_append]
          exact congrArg (List.cons c) (ih j hf)

theorem lineLen_drop (l : JStr) :
    l.drop (lineLen l) = [] ∨ ∃ v, l.drop (lineLen l) = '\n' :: v := by
  induction l with
  | nil => exact Or.inl rfl
  | cons c rest ih =>
    rw [show lineLen (c :: rest) = if c = '\n' then 0 else lineLen rest + 1 from rfl]
    by_cases hc : c = '\n'
    · rw [if_pos hc]
      exact Or.inr ⟨rest, by rw [hc]; rfl⟩
    · rw [if_neg hc, List.drop_succ_cons]
      exact ih

-- ---------------------------------------------------------------------------
-- Content formatter (C9): single-step and tag-copy lemmas.
-- ---------------------------------------------------------------------------

theorem replaceStrong_cons_ne (c : Char) (rest : JStr) (hc : c ≠ '*') :
    replaceStrong (c :: rest) = c :: replaceStrong rest := by
  rw [replaceStrong_cons, if_neg (fun h => hc h.1)]

theorem replaceEm_cons_ne (c : Char) (rest : JStr) (hc : c ≠ '*') :
    replaceEm (c :: rest) = c :: replaceEm rest := by
  rw [replaceEm_cons, if_neg hc]

theorem isSummaryTrigger_ne_space (c : Char) (l : JStr) (hc : c ≠ ' ') :
    isSummaryTrigger (c :: l) = false := by
  unfold isSummaryTrigger
  rw [show (c :: l).take 4 = c :: l.take 3 from rfl]
  rw [beq_eq_false_iff_ne]
  intro he
  injection he with ha _
  exact hc ha

theorem replaceSummary_cons_false (c : Char) (rest : JStr)
    (h : isSummaryTrigger (c :: rest) = false) :
    replaceSummary (c :: rest) = c :: replaceSummary rest := by
  rw [replaceSummary_cons, h]
  simp

theorem replaceSummary_cons_ne (c : Char) (rest : JStr) (hc : c ≠ ' ') :
    replaceSummary (c :: rest) = c :: replaceSummary rest :=
  replaceSummary_cons_false c rest (isSummaryTrigger_ne_space c rest hc)

theorem replaceBr2_cons_ne (c : Char) (rest : JStr) (hc : c ≠ '\n') :
    replaceBr2 (c :: rest) = c :: replaceBr2 rest := by
  rw [replaceBr2_cons, if_neg (fun h => hc h.1)]

theorem replaceBr1_cons_ne (c : Char) (rest : JStr) (hc : c ≠ '\n') :
    replaceBr1 (c :: rest) = c :: replaceBr1 rest := by
  simp [replaceBr1, hc]

theorem replaceStrong_append_copy (p r : JStr) (hp : ∀ c ∈ p, c ≠ '*') :
    replaceStrong (p ++ r) = p ++ replaceStrong r := by
  induction p with
  | nil => simp
  | cons c cs ih =>
    rw [List.cons_append, replaceStrong_cons_ne c _ (hp c (List.mem_cons_self _ _)),
      ih (fun d hd => hp d (List.mem_cons_of_mem _ hd)), List.cons_append]

theorem replaceEm_append_copy (p r : JStr) (hp : ∀ c ∈ p, c ≠ '*') :
    replaceEm (p ++ r) = p ++ replaceEm r := by
  induction p with
  | nil => simp
  | cons c cs ih =>
    rw [List.cons_append, replaceEm_cons_ne c _ (hp c (List.mem_cons_self _ _)),
      ih (fun d hd => hp d (List.mem_cons_of_mem _ hd)), List.cons_append]

theorem replaceSummary_append_copy (p r : JStr) (hp : ∀ c ∈ p, c ≠ ' ') :
    replaceSummary (p ++ r) = p ++ replaceSummary r := by
  induction p with
  | nil => simp
  | cons c cs ih =>
    rw [List.cons_append, replaceSummary_cons_ne c _ (hp c (List.mem_cons_self _ _)),
      ih (fun d hd => hp d (List.mem_cons_of_mem _ hd)), List.cons_append]

theorem replaceBr2_append_copy (p r : JStr) (hp : ∀ c ∈ p, c ≠ '\n') :
    replaceBr2 (p ++ r) = p ++ replaceBr2 r := by
  induction p with
  | nil => simp
  | cons c cs ih =>
    rw [List.cons_append, replaceBr2_cons_ne c _ (hp c (List.mem_cons_self _ _)),
      ih (fun d hd => hp d (List.mem_cons_of_mem _ hd)), List.cons_append]

theorem replaceBr1_append_copy (p r : JStr) (hp : ∀ c ∈ p, c ≠ '\n') :
    replaceBr1 (p ++ r) = p ++ replaceBr1 r := by
  induction p with
  | nil => simp
  | cons c cs ih =>
    rw [List.cons_append, replaceBr1_cons_ne c _ (hp c (List.mem_cons_self _ _)),
      ih (fun d hd => hp d (List.mem_cons_of_mem _ hd)), List.cons_append]

-- ---------------------------------------------------------------------------
-- Content formatter (C9): facts about the concrete tag sets.
-- ---------------------------------------------------------------------------

theorem strongTags_head : ∀ t ∈ strongTags, t.head? = some '<' := by decide

theorem emTags_head : ∀ t ∈ emTags, t.head? = some '<' := by decide

theorem summaryTags_head : ∀ t ∈ summaryTags, t.head? = some '<' := by decide

theorem formatterTags_head : ∀ t ∈ formatterTags, t.head? = some '<' := by decide

theorem strongTags_noStarMem : ∀ t ∈ strongTags, '*' ∉ t := by decide

theorem strongTags_noStar : ∀ t ∈ strongTags, ∀ c ∈ t, c ≠ '*' := by decide

theorem emTags_noSpace : ∀ t ∈ emTags, ∀ c ∈ t, c ≠ ' ' := by decide

theorem emTags_noNlMem : ∀ t ∈ emTags, '\n' ∉ t := by decide

theorem summaryTags_noNl : ∀ t ∈ summaryTags, ∀ c ∈ t, c ≠ '\n' := by decide

theorem formatterTags_noNl : ∀ t ∈ formatterTags, ∀ c ∈ t, c ≠ '\n' := by decide

theorem strongTags_sub_emTags : strongTags ⊆ emTags := by decide

theorem emTags_sub_summaryTags : emTags ⊆ summaryTags := by decide

theorem summaryTags_sub_formatterTags : summaryTags ⊆ formatterTags := by decide

theorem strongOpen_mem : strongOpen ∈ strongTags := by decide

theorem strongClose_mem : strongClose ∈ strongTags := by decide

theorem emOpen_mem : emOpen ∈ emTags := by decide

theorem emClose_mem : emClose ∈ emTags := by decide

theorem divOpen_mem : divOpen ∈ summaryTags := by decide

theorem divClose_mem : divClose ∈ summaryTags := by decide

theorem brTag_mem : brTag ∈ formatterTags := by decide

-- ---------------------------------------------------------------------------
-- Content formatter (C9): the strong pass.
-- ---------------------------------------------------------------------------

theorem replaceStrong_tagged (l : JStr) (h : NoAngle l) :
    TaggedBy strongTags (replaceStrong l) := by
  have main : ∀ n, ∀ l2 : JStr, l2.length ≤ n → NoAngle l2 →
      TaggedBy strongTags (replaceStrong l2) := by
    intro n
    induction n with
    | zero =>
      intro l2 hl h2
      rw [List.length_eq_zero.mp (Nat.le_zero.mp hl), replaceStrong_nil]
      exact TaggedBy.nil
    | succ n ih =>
      intro l2 hl h2
      cases l2 with
      | nil =>
        rw [replaceStrong_nil]
        exact TaggedBy.nil
      | cons c rest =>
        simp only [List.length_cons] at hl
        rw [replaceStrong_cons]
        by_cases htr : c = '*' ∧ rest.take 1 = ['*']
        · rw [if_pos htr]
          cases hf : findClose (rest.drop 1) with
          | none =>
            dsimp only
            refine TaggedBy.plain ?_ ?_
              (ih rest (by omega) (fun d hd => h2 d (List.mem_cons_of_mem _ hd)))
            · rw [htr.1]; decide
            · rw [htr.1]; decide
          | some i =>
            dsimp only
            have hsub1 : NoAngle ((rest.drop 1).take i) :=
              noAngle_sub h2 (fun d hd => List.mem_cons_of_mem _
                (List.drop_subset _ _ (List.take_subset _ _ hd)))
            have hsub2 : NoAngle ((rest.drop 1).drop (i + 2)) :=
              noAngle_sub h2 (fun d hd => List.mem_cons_of_mem _
                (List.drop_subset _ _ (List.drop_subset _ _ hd)))
            have hlen : ((rest.drop 1).drop (i + 2)).length ≤ n := by
              simp only [List.length_drop]
              omega
            rw [List.append_assoc, List.append_assoc]
            exact taggedBy_append (taggedBy_of_mem strongOpen_mem)
              (taggedBy_append (noAngle_taggedBy hsub1)
                (taggedBy_append (taggedBy_of_mem strongClose_mem) (ih _ hlen hsub2)))
        · rw [if_neg htr]
          obtain ⟨h1, h2c⟩ := h2 c (List.mem_cons_self _ _)
          exact TaggedBy.plain h1 h2c
            (ih rest (by omega) (fun d hd => h2 d (List.mem_cons_of_mem _ hd)))
  exact main l.length l le_rfl h

-- ---------------------------------------------------------------------------
-- Content formatter (C9): the em pass.
-- ---------------------------------------------------------------------------

theorem replaceEm_tagged (l : JStr) (h : TaggedBy strongTags l) :
    TaggedBy emTags (replaceEm l) := by
  have main : ∀ n, ∀ l2 : JStr, l2.length ≤ n → TaggedBy strongTags l2 →
      TaggedBy emTags (replaceEm l2) := by
    intro n
    induction n with
    | zero =>
      intro l2 hl h2
      rw [List.length_eq_zero.mp (Nat.le_zero.mp hl), replaceEm_nil]
      exact TaggedBy.nil
    | succ n ih =>
      intro l2 hl h2
      cases l2 with
      | nil =>
        rw [replaceEm_nil]
        exact TaggedBy.nil
      | cons c rest =>
        simp only [List.length_cons] at hl
        by_cases hc : c = '*'
        · subst hc
          obtain ⟨-, hrest⟩ := taggedBy_cons_plain strongTags_head h2 (by decide)
          rw [replaceEm_cons, if_pos rfl]
          cases hf : findCloseEm rest with
          | none =>
            dsimp only
            exact TaggedBy.plain (by decide) (by decide) (ih rest (by omega) hrest)
          | some i =>
            dsimp only
            have hspec := findCloseEm_spec rest i hf
            have hrest2 : TaggedBy strongTags (rest.take i ++ '*' :: rest.drop (i + 1)) := by
              rw [hspec]
              exact hrest
            obtain ⟨hu, hv⟩ := taggedBy_split strongTags_noStarMem hrest2
            have hlen : (rest.drop (i + 1)).length ≤ n := by
              simp only [List.length_drop]
              omega
            rw [List.append_assoc, List.append_assoc]
            exact taggedBy_append (taggedBy_of_mem emOpen_mem)
              (taggedBy_append (taggedBy_mono strongTags_sub_emTags hu)
                (taggedBy_append (taggedBy_of_mem emClose_mem) (ih _ hlen hv)))
        · by_cases hlt : c = '<'
          · subst hlt
            obtain ⟨t, ht, rest2, heq, hrest2⟩ := taggedBy_cons_lt h2
            rw [heq, replaceEm_append_copy t rest2 (strongTags_noStar t ht)]
            have htne : t ≠ [] := by
              intro h0
              rw [h0] at ht
              exact absurd (strongTags_head _ ht) (by simp)
            have hlen2 : rest2.length ≤ n := by
              have hlen3 := congrArg List.length heq
              simp only [List.length_cons, List.length_append] at hlen3
              have hpos : 0 < t.length := List.length_pos.mpr htne
              omega
            exact TaggedBy.tag (strongTags_sub_emTags ht) (ih rest2 hlen2 hrest2)
          · obtain ⟨hgt, hrest⟩ := taggedBy_cons_plain strongTags_head h2 hlt
            rw [replaceEm_cons_ne c rest hc]
            exact TaggedBy.plain hlt hgt (ih rest (by omega) hrest)
  exact main l.length l le_rfl h

-- ---------------------------------------------------------------------------
-- Content formatter (C9): the summary-line pass.
-- ---------------------------------------------------------------------------

theorem replaceSummary_tagged (l : JStr) (h : TaggedBy emTags l) :
    TaggedBy summaryTags (replaceSummary l) := by
  have main : ∀ n, ∀ l2 : JStr, l2.length ≤ n → TaggedBy emTags l2 →
      TaggedBy summaryTags (replaceSummary l2) := by
    intro n
    induction n with
    | zero =>
      intro l2 hl h2
      rw [List.length_eq_zero.mp (Nat.le_zero.mp hl), replaceSummary_nil]
      exact TaggedBy.nil
    | succ n ih =>
      intro l2 hl h2
      cases l2 with
      | nil =>
        rw [replaceSummary_nil]
        exact TaggedBy.nil
      | cons c rest =>
        simp only [List.length_cons] at hl
        by_cases htr : isSummaryTrigger (c :: rest) = true
        · have htake : (c :: rest).take 4 = [' ', ' ', '-', ' '] := by
            have h4 := htr
            unfold isSummaryTrigger at h4
            exact eq_of_beq h4
          rw [show (c :: rest).take 4 = c :: rest.take 3 from rfl] at htake
          injection htake with hc3 htake3
          subst hc3
          have hrest_eq : rest = ' ' :: '-' :: ' ' :: rest.drop 3 := by
            conv_lhs => rw [← List.take_append_drop 3 rest]
            rw [htake3]
            rfl
          obtain ⟨-, hrest⟩ := taggedBy_cons_plain emTags_head h2 (by decide)
          rw [hrest_eq] at hrest
          obtain ⟨-, hrest⟩ := taggedBy_cons_plain emTags_head hrest (by decide)
          obtain ⟨-, hrest⟩ := taggedBy_cons_plain emTags_head hrest (by decide)
          obtain ⟨-, hrest⟩ := taggedBy_cons_plain emTags_head hrest (by decide)
          rw [replaceSummary_cons, htr, if_pos rfl]
          rcases lineLen_drop (rest.drop 3) with hdrop | ⟨v, hdrop⟩
          · have htake_eq : (rest.drop 3).take (lineLen (rest.drop 3)) = rest.drop 3 := by
              have h5 := List.take_append_drop (lineLen (rest.drop 3)) (rest.drop 3)
              rw [hdrop, List.append_nil] at h5
              exact h5
            rw [hdrop, replaceSummary_nil, List.append_assoc, List.append_assoc]
            refine taggedBy_append (taggedBy_of_mem divOpen_mem)
              (taggedBy_append ?_
                (taggedBy_append (taggedBy_of_mem divClose_mem) TaggedBy.nil))
            rw [htake_eq]
            exact taggedBy_mono emTags_sub_summaryTags hrest
          · have hsplit_input : TaggedBy emTags
                ((rest.drop 3).take (lineLen (rest.drop 3)) ++ '\n' :: v) := by
              have h5 := List.take_append_drop (lineLen (rest.drop 3)) (rest.drop 3)
              rw [hdrop] at h5
              rw [h5]
              exact hrest
            obtain ⟨hu, hv⟩ := taggedBy_split emTags_noNlMem hsplit_input
            have hdropTagged : TaggedBy emTags ((rest.drop 3).drop (lineLen (rest.drop 3))) := by
              rw [hdrop]
              exact TaggedBy.plain (by decide) (by decide) hv
            have hlen : (((rest.drop 3).drop (lineLen (rest.drop 3)))).length ≤ n := by
              simp only [List.length_drop]
              omega
            rw [List.append_assoc, List.append_assoc]
            exact taggedBy_append (taggedBy_of_mem divOpen_mem)
              (taggedBy_append (taggedBy_mono emTags_sub_summaryTags hu)
                (taggedBy_append (taggedBy_of_mem divClose_mem) (ih _ hlen hdropTagged)))
        · have htr2 : isSummaryTrigger (c :: rest) = false := by
            revert htr
            cases isSummaryTrigger (c :: rest) <;> simp
          by_cases hlt : c = '<'
          · subst hlt
            obtain ⟨t, ht, rest2, heq, hrest2⟩ := taggedBy_cons_lt h2
            rw [heq, replaceSummary_append_copy t rest2 (emTags_noSpace t ht)]
            have htne : t ≠ [] := by
              intro h0
              rw [h0] at ht
              exact absurd (emTags_head _ ht) (by simp)
            have hlen2 : rest2.length ≤ n := by
              have hlen3 := congrArg List.length heq
              simp only [List.length_cons, List.length_append] at hlen3
              have hpos : 0 < t.length := List.length_pos.mpr htne
              omega
            exact TaggedBy.tag (emTags_sub_summaryTags ht) (ih rest2 hlen2 hrest2)
          · obtain ⟨hgt, hrest⟩ := taggedBy_cons_plain emTags_head h2 hlt
            rw [replaceSummary_cons_false c rest htr2]
            exact TaggedBy.plain hlt hgt (ih rest (by omega) hrest)
  exact main l.length l le_rfl h

-- ---------------------------------------------------------------------------
-- Content formatter (C9): the break passes and the main theorem.
-- ---------------------------------------------------------------------------

theorem replaceBr2_tagged (l : JStr) (h : TaggedBy summaryTags l) :
    TaggedBy formatterTags (replaceBr2 l) := by
  have main : ∀ n, ∀ l2 : JStr, l2.length ≤ n → TaggedBy summaryTags l2 →
      TaggedBy formatterTags (replaceBr2 l2) := by
    intro n
    induction n with
    | zero =>
      intro l2 hl h2
      rw [List.length_eq_zero.mp (Nat.le_zero.mp hl), replaceBr2_nil]
      exact TaggedBy.nil
    | succ n ih =>
      intro l2 hl h2
      cases l2 with
      | nil =>
        rw [replaceBr2_nil]
        exact TaggedBy.nil
      | cons c rest =>
        simp only [List.length_cons] at hl
        by_cases htr : c = '\n' ∧ rest.take 1 = ['\n']
        · obtain ⟨hc, ht1⟩ := htr
          subst hc
          obtain ⟨-, hrest⟩ := taggedBy_cons_plain summaryTags_head h2 (by decide)
          cases rest with
          | nil => simp at ht1
          | cons y ys =>
            have hy : y = '\n' := by simpa using ht1
            subst hy
            obtain ⟨-, hys⟩ := taggedBy_cons_plain summaryTags_head hrest (by decide)
            rw [replaceBr2_cons, if_pos ⟨rfl, rfl⟩]
            rw [List.append_assoc]
            simp only [List.length_cons] at hl
            exact taggedBy_append (taggedBy_of_mem brTag_mem)
              (taggedBy_append (taggedBy_of_mem brTag_mem) (ih ys (by omega) hys))
        · by_cases hlt : c = '<'
          · subst hlt
            obtain ⟨t, ht, rest2, heq, hrest2⟩ := taggedBy_cons_lt h2
            rw [heq, replaceBr2_append_copy t rest2 (summaryTags_noNl t ht)]
            have htne : t ≠ [] := by
              intro h0
              rw [h0] at ht
              exact absurd (summaryTags_head _ ht) (by simp)
            have hlen2 : rest2.length ≤ n := by
              have hlen3 := congrArg List.length heq
              simp only [List.length_cons, List.length_append] at hlen3
              have hpos : 0 < t.length := List.length_pos.mpr htne
              omega
            exact TaggedBy.tag (summaryTags_sub_formatterTags ht) (ih rest2 hlen2 hrest2)
          · obtain ⟨hgt, hrest⟩ := taggedBy_cons_plain summaryTags_head h2 hlt
            rw [replaceBr2_cons, if_neg htr]
            exact TaggedBy.plain hlt hgt (ih rest (by omega) hrest)
  exact main l.length l le_rfl h

theorem replaceBr1_tagged (l : JStr) (h : TaggedBy formatterTags l) :
    TaggedBy formatterTags (replaceBr1 l) := by
  have main : ∀ n, ∀ l2 : JStr, l2.length ≤ n → TaggedBy formatterTags l2 →
      TaggedBy formatterTags (replaceBr1 l2) := by
    intro n
    induction n with
    | zero =>
      intro l2 hl h2
      rw [List.length_eq_zero.mp (Nat.le_zero.mp hl)]
      exact TaggedBy.nil
    | succ n ih =>
      intro l2 hl h2
      cases l2 with
      | nil => exact TaggedBy.nil
      | cons c rest =>
        simp only [List.length_cons] at hl
        by_cases hc : c = '\n'
        · subst hc
          obtain ⟨-, hrest⟩ := taggedBy_cons_plain formatterTags_head h2 (by decide)
          rw [show replaceBr1 ('\n' :: rest) = brTag ++ replaceBr1 rest by simp [replaceBr1]]
          exact taggedBy_append (taggedBy_of_mem brTag_mem) (ih rest (by omega) hrest)
        · by_cases hlt : c = '<'
          · subst hlt
            obtain ⟨t, ht, rest2, heq, hrest2⟩ := taggedBy_cons_lt h2
            rw [heq, replaceBr1_append_copy t rest2 (formatterTags_noNl t ht)]
            have htne : t ≠ [] := by
              intro h0
              rw [h0] at ht
              exact absurd (formatterTags_head _ ht) (by simp)
            have hlen2 : rest2.length ≤ n := by
              have hlen3 := congrArg List.length heq
              simp only [List.length_cons, List.length_append] at hlen3
              have hpos : 0 < t.length := List.length_pos.mpr htne
              omega
            exact TaggedBy.tag ht (ih rest2 hlen2 hrest2)
          · obtain ⟨hgt, hrest⟩ := taggedBy_cons_plain formatterTags_head h2 hlt
            rw [replaceBr1_cons_ne c rest hc]
            exact TaggedBy.plain hlt hgt (ih rest (by omega) hrest)
  exact main l.length l le_rfl h

/-- C9: formatContent entity-encodes the five HTML-special characters before
the markdown-style substitutions run — the escape stage leaves no angle
bracket at all — so every less-than or greater-than character of the output
belongs to one of the fixed formatter-introduced tags (strong, em,
summary-line div, br), and no tag text originating from the input survives
unescaped. -/
theorem formatContent_safe (s : String) :
    TaggedBy formatterTags (formatContent s).data ∧ NoAngle (escapeEntities s.data) := by
  refine ⟨?_, escapeEntities_noAngle s.data⟩
  unfold formatContent
  by_cases hs : s = ""
  · rw [if_pos hs]
    exact TaggedBy.nil
  · rw [if_neg hs]
    show TaggedBy formatterTags (formatContentList s.data)
    unfold formatContentList
    exact replaceBr1_tagged _ (replaceBr2_tagged _ (replaceSummary_tagged _
      (replaceEm_tagged _ (replaceStrong_tagged _ (escapeEntities_noAngle s.data)))))
